import Mathlib

/-!
Verification of the replicest replication-variance engine and its estimator
kernels against a shallow Lean embedding of the Rust sources.

Modelling conventions.

* Machine floats (`f64`) are modelled exactly: engine level arithmetic, which
  the claims state as exact algebraic identities, is carried out over `ℚ`;
  kernel level values, where `NaN` is significant, live in the type `F` below
  (`ℚ` extended by a `NaN` element with IEEE-style propagation).  Infinities
  are not modelled: division by zero yields `F.nan`.
* `DMatrix<f64>` is a list of rows, `DVector<f64>` a list; `nalgebra`
  matrices are rectangular, which theorems assume via explicit hypotheses.
* Rust panics (`assert!`, `unwrap`) are modelled by `Option`/`Except`
  results; `f64::sqrt` (an irrational-valued primitive) is modelled with
  `Real.sqrt`, and the linear-algebra library primitives used by the
  correlation and regression kernels (`try_inverse`, QR `solve`) are
  abstracted as function parameters, as the specification declares them
  external collaborators.
* The engine collects per-imputation results from a channel in arbitrary
  arrival order; the model collects them in imputation order.  All aggregated
  outputs are order-insensitive (proved as the permutation-invariance
  theorem below), so this fixes only the `parameter_names` field, which the
  source takes from an arbitrary arrival anyway.
-/

deriving instance DecidableEq for Except

namespace Replicest

/-- Scalar model of an `f64` value as carried by the estimator kernels: either
a rational number or `NaN`. -/
inductive F where
  | nan : F
  | val (q : ℚ) : F
deriving DecidableEq, Repr

namespace F

/-- Model of `f64::is_nan`. -/
def isNaN : F → Bool
  | nan => true
  | val _ => false

/-- Rational carried by a non-`NaN` scalar (defaulting to 0 on `NaN`). -/
def toQ : F → ℚ
  | nan => 0
  | val q => q

/-- Model of `f64` addition (`NaN` propagates). -/
def add : F → F → F
  | val a, val b => val (a + b)
  | _, _ => nan

/-- Model of `f64` subtraction (`NaN` propagates). -/
def sub : F → F → F
  | val a, val b => val (a - b)
  | _, _ => nan

/-- Model of `f64` multiplication (`NaN` propagates). -/
def mul : F → F → F
  | val a, val b => val (a * b)
  | _, _ => nan

/-- Model of `f64` division: `NaN` propagates and any division by zero is
mapped to `NaN` (infinities are not modelled). -/
def div : F → F → F
  | val a, val b => if b = 0 then nan else val (a / b)
  | _, _ => nan

/-- Model of summing a sequence of `f64` values left to right from `0.0`. -/
def sum (l : List F) : F := l.foldl add (val 0)

end F

/-- Type of a `DVector<f64>` at engine level (exact values). -/
abbrev Vec := List ℚ

/-- Type of a `DMatrix<f64>` at engine level, as its list of rows. -/
abbrev Mat := List (List ℚ)

/-- Type of a `DVector<f64>` at kernel level (`NaN`-aware values). -/
abbrev VecF := List F

/-- Type of a `DMatrix<f64>` at kernel level, as its list of rows. -/
abbrev MatF := List (List F)

/-- Column count of a row-list matrix (`nalgebra` matrices are rectangular,
so the first row is representative). -/
def ncols {α : Type} (m : List (List α)) : ℕ := ((m.head?).map List.length).getD 0

/-- Column `c` of an engine-level matrix. -/
def colQ (m : Mat) (c : ℕ) : Vec := m.map (fun r => r.getD c 0)

/-- Column `c` of a kernel-level matrix. -/
def colF (m : MatF) (c : ℕ) : VecF := m.map (fun r => r.getD c F.nan)

namespace replication

/-- Mirrors `Estimates` (src/estimates.rs) as consumed by the engine: an
ordered list of parameter names paired with the estimate vector. -/
structure Estimates where
  parameter_names : List String
  estimates : List ℚ
deriving DecidableEq, Repr

/-- Mirrors `calc_replication_variance` (src/replication.rs, lines 110-117):
entry `r` is `factor` times the sum over replicate columns of the squared
deviation from `estimates[r]`.  The replicate matrix is passed as its list of
columns, matching how both call sites assemble it column by column. -/
def calc_replication_variance (estimates : List ℚ) (replicated_estimates : List (List ℚ))
    (factor : ℚ) : List ℚ :=
  (List.range estimates.length).map (fun r =>
    ((replicated_estimates.map (fun c => (c.getD r 0 - estimates.getD r 0) ^ 2)).sum) * factor)

/-- Mirrors `calc_standard_errors_from_variances` (src/replication.rs, lines
119-123): elementwise `sqrt(v_samp + v_imp * (1 + 1/n_imp))`. -/
noncomputable def calc_standard_errors_from_variances (sampling_variances : List ℚ)
    (imputation_variances : List ℚ) (n_imp : ℕ) : List ℝ :=
  List.zipWith (fun (vs : ℚ) (vi : ℚ) => Real.sqrt ((vs : ℝ) + (vi : ℝ) * (1 + 1 / (n_imp : ℝ))))
    sampling_variances imputation_variances

/-- Mirrors `ReplicatedEstimates` (src/replication.rs, lines 8-14). -/
structure ReplicatedEstimates where
  parameter_names : List String
  final_estimates : List ℚ
  sampling_variances : List ℚ
  imputation_variances : List ℚ
  standard_errors : List ℝ

/-- Weight vector used for an imputation (src/replication.rs, line 52): the
per-imputation one when several are supplied, otherwise the shared one. -/
def resolved_weight (weights : List Vec) (imputation : ℕ) : Vec :=
  if 1 < weights.length then weights.getD imputation [] else weights.getD 0 []

/-- Replicate-weight matrix used for an imputation (src/replication.rs, lines
53-57). -/
def resolved_replicate_weights (replicate_wgts : List Mat) (imputation : ℕ) : Mat :=
  if replicate_wgts.length = 0 then []
  else if replicate_wgts.length = 1 then replicate_wgts.getD 0 []
  else replicate_wgts.getD imputation []

section engine

variable (estimator : Mat → Vec → Estimates) (x : List Mat) (weights : List Vec)
  (replicate_wgts : List Mat) (factor : ℚ)

/-- Mirrors the body of one scoped task of `replicate_estimates`
(src/replication.rs, lines 60-75): the point estimates of the imputation and
its sampling-variance vector (zero when there are no replicate columns). -/
def imputation_task (imputation : ℕ) : Estimates × List ℚ :=
  let data := x.getD imputation []
  let weight := resolved_weight weights imputation
  let repweights := resolved_replicate_weights replicate_wgts imputation
  let estimates_imputation := estimator data weight
  let sampling_variances_imputation :=
    if 0 < ncols repweights then
      calc_replication_variance estimates_imputation.estimates
        ((List.range (ncols repweights)).map (fun c => (estimator data (colQ repweights c)).estimates))
        factor
    else
      List.replicate estimates_imputation.estimates.length 0
  (estimates_imputation, sampling_variances_imputation)

/-- Per-imputation task results as collected from the channel, in imputation
order (see the module comment on arrival order). -/
def collected : List (Estimates × List ℚ) :=
  (List.range x.length).map (imputation_task estimator x weights replicate_wgts factor)

/-- Length to which `estimates` and `sampling_variances` are sized from the
first collected result (src/replication.rs, lines 83-86). -/
def out_len : ℕ :=
  (((collected estimator x weights replicate_wgts factor).head?).map
    (fun t => t.1.estimates.length)).getD 0

/-- Columns of the `estimates` matrix assembled by the collection loop
(src/replication.rs, line 87), one per imputation. -/
def estimate_columns : List (List ℚ) :=
  (collected estimator x weights replicate_wgts factor).map (fun t => t.1.estimates)

/-- Accumulated `sampling_variances` before the division by `m`
(src/replication.rs, line 88). -/
def sampling_sums : List ℚ :=
  (collected estimator x weights replicate_wgts factor).foldl
    (fun acc t => List.zipWith (fun a b => a + b) acc t.2)
    (List.replicate (out_len estimator x weights replicate_wgts factor) 0)

/-- Row means of the estimate matrix (src/replication.rs, line 92). -/
def final_estimates : List ℚ :=
  (List.range (out_len estimator x weights replicate_wgts factor)).map (fun r =>
    ((estimate_columns estimator x weights replicate_wgts factor).map
      (fun c => c.getD r 0)).sum / (x.length : ℚ))

/-- Sampling variances after the division by `m` (src/replication.rs,
line 93). -/
def sampling_variances : List ℚ :=
  (sampling_sums estimator x weights replicate_wgts factor).map (fun v => v / (x.length : ℚ))

/-- Imputation variances (src/replication.rs, lines 94-98). -/
def imputation_variances : List ℚ :=
  if 1 < x.length then
    calc_replication_variance (final_estimates estimator x weights replicate_wgts factor)
      (estimate_columns estimator x weights replicate_wgts factor)
      (1 / ((x.length : ℚ) - 1))
  else
    List.replicate (sampling_variances estimator x weights replicate_wgts factor).length 0

/-- Mirrors `replicate_estimates` (src/replication.rs, lines 38-108).  The two
length assertions at its head are modelled by the `Option` result;
`parameter_names` comes from the last collected task (src/replication.rs,
line 82), and the remaining fields are the combination steps of lines 92-99,
spelled out in the named definitions above. -/
noncomputable def replicate_estimates : Option ReplicatedEstimates :=
  if (weights.length = 1 ∨ weights.length = x.length) ∧
     (replicate_wgts.length = 1 ∨ replicate_wgts.length = x.length) then
    some
      { parameter_names := (((collected estimator x weights replicate_wgts factor).getLast?).map
          (fun t => t.1.parameter_names)).getD []
        final_estimates := final_estimates estimator x weights replicate_wgts factor
        sampling_variances := sampling_variances estimator x weights replicate_wgts factor
        imputation_variances := imputation_variances estimator x weights replicate_wgts factor
        standard_errors := calc_standard_errors_from_variances
          (sampling_variances estimator x weights replicate_wgts factor)
          (imputation_variances estimator x weights replicate_wgts factor) x.length }
  else none

end engine

section rubin

variable (estimator : Mat → Vec → Estimates) (x : List Mat) (weights : List Vec)
  (replicate_wgts : List Mat) (factor : ℚ)

/-- Formula side of the claims: the point estimate `θ_i[k]` of imputation `i`
under its resolved weight vector. -/
def point_estimate (i k : ℕ) : ℚ :=
  ((estimator (x.getD i []) (resolved_weight weights i)).estimates).getD k 0

/-- Formula side of the claims: the replicate estimate `θ_i^(c)[k]` of
imputation `i` under replicate-weight column `c`. -/
def replicate_estimate (i c k : ℕ) : ℚ :=
  ((estimator (x.getD i [])
    (colQ (resolved_replicate_weights replicate_wgts i) c)).estimates).getD k 0

/-- Formula side of the claims: the per-imputation sampling variance
`V_samp,i[k] = α · Σ_c (θ_i^(c)[k] − θ_i[k])²` (zero when `r = 0`). -/
def imputation_sampling_variance (i k : ℕ) : ℚ :=
  factor * ((List.range (ncols (resolved_replicate_weights replicate_wgts i))).map
    (fun c => (replicate_estimate estimator x replicate_wgts i c k -
      point_estimate estimator x weights i k) ^ 2)).sum

/-- Formula side of the claims: the final estimate as the arithmetic mean of
the per-imputation point estimates. -/
def combined_point_estimate (k : ℕ) : ℚ :=
  ((List.range x.length).map (fun i => point_estimate estimator x weights i k)).sum /
    (x.length : ℚ)

/-- Formula side of the claims: the returned sampling variance as `(1/m)`
times the sum of the per-imputation sampling variances. -/
def combined_sampling_variance (k : ℕ) : ℚ :=
  (1 / (x.length : ℚ)) * ((List.range x.length).map
    (fun i => imputation_sampling_variance estimator x weights replicate_wgts factor i k)).sum

/-- Formula side of the claims: the imputation variance as `1/(m−1)` times the
sum of squared deviations of the per-imputation estimates from the final
estimate for `m > 1`, and `0` for `m = 1`. -/
def combined_imputation_variance (k : ℕ) : ℚ :=
  if 1 < x.length then
    (1 / ((x.length : ℚ) - 1)) * ((List.range x.length).map
      (fun i => (point_estimate estimator x weights i k -
        combined_point_estimate estimator x weights k) ^ 2)).sum
  else 0

end rubin

end replication

section listlemmas

/-- Indexing a mapped range below its length. -/
theorem getD_map_range {α : Type} {n k : ℕ} (f : ℕ → α) (d : α) (h : k < n) :
    ((List.range n).map f).getD k d = f k := by
  rw [List.getD_eq_getElem _ _ (by simpa using h : k < ((List.range n).map f).length)]
  simp

/-- Indexing a replicated list below its length. -/
theorem getD_replicate_lt {α : Type} {v d : α} {n k : ℕ} (h : k < n) :
    (List.replicate n v).getD k d = v := by
  rw [List.getD_eq_getElem _ _ (by simpa using h : k < (List.replicate n v).length)]
  simp

/-- Indexing a `zipWith` below both lengths. -/
theorem getD_zipWith_lt {α β γ : Type} (f : α → β → γ) (a : List α) (b : List β) (k : ℕ)
    (da : α) (db : β) (dc : γ) (ha : k < a.length) (hb : k < b.length) :
    (List.zipWith f a b).getD k dc = f (a.getD k da) (b.getD k db) := by
  rw [List.getD_eq_getElem _ _
      (by simp only [List.length_zipWith]; omega : k < (List.zipWith f a b).length),
    List.getElem_zipWith, List.getD_eq_getElem _ _ ha, List.getD_eq_getElem _ _ hb]

/-- Indexing `List.ofFn` below its length. -/
theorem getD_ofFn_lt {α : Type} {m : ℕ} (f : Fin m → α) (k : ℕ) (h : k < m) (d : α) :
    (List.ofFn f).getD k d = f ⟨k, h⟩ := by
  rw [List.getD_eq_getElem _ _ (by simpa using h), List.getElem_ofFn]

/-- Summing a function over `range m` is invariant under precomposition with a
permutation of `Fin m`. -/
theorem sum_map_range_perm (m : ℕ) (σ : Equiv.Perm (Fin m)) (G G' : ℕ → ℚ)
    (hpt : ∀ i : Fin m, G' i.val = G ((σ i).val)) :
    ((List.range m).map G').sum = ((List.range m).map G).sum := by
  have h1 : ((List.range m).map G').sum = ∑ i ∈ Finset.range m, G' i := rfl
  have h2 : ((List.range m).map G).sum = ∑ i ∈ Finset.range m, G i := rfl
  rw [h1, h2, ← Fin.sum_univ_eq_sum_range G' m, ← Fin.sum_univ_eq_sum_range G m,
    ← Equiv.sum_comp σ (fun j => G j.val)]
  exact Finset.sum_congr rfl (fun i _ => hpt i)

/-- Folding elementwise addition preserves the length when all summand lists
have the initial length. -/
theorem foldl_zipWith_add_length (ts : List (List ℚ)) (init : List ℚ)
    (h : ∀ t ∈ ts, t.length = init.length) :
    (ts.foldl (fun acc t => List.zipWith (fun a b => a + b) acc t) init).length =
      init.length := by
  induction ts generalizing init with
  | nil => rfl
  | cons t ts ih =>
    have ht : t.length = init.length := h t (by simp)
    have hlen : (List.zipWith (fun a b => a + b) init t).length = init.length := by
      simp [List.length_zipWith, ht]
    rw [List.foldl_cons, ih _ (by intro u hu; rw [hlen]; exact h u (by simp [hu])), hlen]

/-- Entry `k` of a fold of elementwise additions is the entry of the initial
list plus the sum of the entries of the summands. -/
theorem foldl_zipWith_add_getD (ts : List (List ℚ)) (init : List ℚ) (k : ℕ)
    (h : ∀ t ∈ ts, t.length = init.length) (hk : k < init.length) :
    (ts.foldl (fun acc t => List.zipWith (fun a b => a + b) acc t) init).getD k 0 =
      init.getD k 0 + (ts.map (fun t => t.getD k 0)).sum := by
  induction ts generalizing init with
  | nil => simp
  | cons t ts ih =>
    have ht : t.length = init.length := h t (by simp)
    have hlen : (List.zipWith (fun a b => a + b) init t).length = init.length := by
      simp [List.length_zipWith, ht]
    rw [List.foldl_cons, ih _ (by intro u hu; rw [hlen]; exact h u (by simp [hu])) (by omega),
      getD_zipWith_lt _ _ _ _ 0 0 0 hk (by omega)]
    simp only [List.map_cons, List.sum_cons]
    ring

end listlemmas

namespace replication

section enginelemmas

variable (estimator : Mat → Vec → Estimates) (x : List Mat) (weights : List Vec)
  (replicate_wgts : List Mat) (factor : ℚ)

/-- Point-estimate component of a task. -/
theorem imputation_task_fst (i : ℕ) :
    (imputation_task estimator x weights replicate_wgts factor i).1 =
      estimator (x.getD i []) (resolved_weight weights i) := rfl

/-- Length of `calc_replication_variance` output. -/
theorem calc_replication_variance_length (e : List ℚ) (r : List (List ℚ)) (f : ℚ) :
    (calc_replication_variance e r f).length = e.length := by
  simp [calc_replication_variance]

/-- Entry `k` of `calc_replication_variance`. -/
theorem calc_replication_variance_getD (e : List ℚ) (r : List (List ℚ)) (f : ℚ) (k : ℕ)
    (hk : k < e.length) :
    (calc_replication_variance e r f).getD k 0 =
      ((r.map (fun c => (c.getD k 0 - e.getD k 0) ^ 2)).sum) * f :=
  getD_map_range _ _ hk

variable (p : ℕ)

/-- Sampling-variance component of a task has the stable output length. -/
theorem imputation_task_snd_length
    (hstable : ∀ X w, ((estimator X w).estimates).length = p) (i : ℕ) :
    (imputation_task estimator x weights replicate_wgts factor i).2.length = p := by
  have h1 := hstable (x.getD i []) (resolved_weight weights i)
  simp only [imputation_task]
  split
  · rw [calc_replication_variance_length]
    exact h1
  · simp only [List.length_replicate]
    exact h1

/-- Entry `k` of the sampling-variance component of a task is the claim's
per-imputation sampling variance. -/
theorem imputation_task_snd_getD
    (hstable : ∀ X w, ((estimator X w).estimates).length = p) (i k : ℕ) (hk : k < p) :
    (imputation_task estimator x weights replicate_wgts factor i).2.getD k 0 =
      imputation_sampling_variance estimator x weights replicate_wgts factor i k := by
  have h1 := hstable (x.getD i []) (resolved_weight weights i)
  simp only [imputation_task, imputation_sampling_variance]
  split
  · rw [calc_replication_variance_getD _ _ _ _ (by rw [h1]; exact hk), List.map_map, mul_comm]
    rfl
  · rename_i hzero
    have hz : ncols (resolved_replicate_weights replicate_wgts i) = 0 := by omega
    rw [getD_replicate_lt (by rw [h1]; exact hk)]
    simp [hz]

/-- The collected list has one result per imputation. -/
theorem collected_length :
    (collected estimator x weights replicate_wgts factor).length = x.length := by
  simp [collected]

/-- Element `i` of the collected list. -/
theorem collected_getElem? (i : ℕ) (h : i < x.length) :
    (collected estimator x weights replicate_wgts factor)[i]? =
      some (imputation_task estimator x weights replicate_wgts factor i) := by
  simp [collected, List.getElem?_range h]

/-- Under a stable estimator, the output length is the stable length. -/
theorem out_len_eq
    (hstable : ∀ X w, ((estimator X w).estimates).length = p) (hm : 0 < x.length) :
    out_len estimator x weights replicate_wgts factor = p := by
  unfold out_len
  rw [List.head?_eq_getElem?, collected_getElem? estimator x weights replicate_wgts factor 0 hm]
  simp only [Option.map_some', Option.getD_some, imputation_task_fst]
  exact hstable _ _

/-- The estimate columns are the per-imputation estimate vectors. -/
theorem estimate_columns_eq :
    estimate_columns estimator x weights replicate_wgts factor =
      (List.range x.length).map
        (fun i => (estimator (x.getD i []) (resolved_weight weights i)).estimates) := by
  unfold estimate_columns collected
  rw [List.map_map]
  rfl

/-- Entry `k` of the accumulated sampling variances is the sum of the
per-imputation sampling variances. -/
theorem sampling_sums_getD
    (hstable : ∀ X w, ((estimator X w).estimates).length = p) (hm : 0 < x.length)
    (k : ℕ) (hk : k < p) :
    (sampling_sums estimator x weights replicate_wgts factor).getD k 0 =
      ((List.range x.length).map
        (fun i => imputation_sampling_variance estimator x weights replicate_wgts factor i k)).sum := by
  unfold sampling_sums
  rw [← List.foldl_map, foldl_zipWith_add_getD _ _ k ?hlen ?hk0]
  case hlen =>
    intro t ht
    rcases List.mem_map.mp ht with ⟨u, hu, rfl⟩
    rcases List.mem_map.mp hu with ⟨i, _, rfl⟩
    rw [List.length_replicate, imputation_task_snd_length estimator x weights replicate_wgts factor p hstable,
      out_len_eq estimator x weights replicate_wgts factor p hstable hm]
  case hk0 =>
    rw [List.length_replicate, out_len_eq estimator x weights replicate_wgts factor p hstable hm]
    exact hk
  rw [getD_replicate_lt (by rw [out_len_eq estimator x weights replicate_wgts factor p hstable hm]; exact hk)]
  unfold collected
  rw [List.map_map, List.map_map, zero_add]
  congr 1
  apply List.map_congr_left
  intro i _
  simp only [Function.comp]
  exact imputation_task_snd_getD estimator x weights replicate_wgts factor p hstable i k hk

/-- Length of the final estimates. -/
theorem final_estimates_length :
    (final_estimates estimator x weights replicate_wgts factor).length =
      out_len estimator x weights replicate_wgts factor := by
  simp [final_estimates]

/-- Entry `k` of the final estimates is the mean of the per-imputation point
estimates. -/
theorem final_estimates_getD
    (hstable : ∀ X w, ((estimator X w).estimates).length = p) (hm : 0 < x.length)
    (k : ℕ) (hk : k < p) :
    (final_estimates estimator x weights replicate_wgts factor).getD k 0 =
      combined_point_estimate estimator x weights k := by
  unfold final_estimates
  rw [out_len_eq estimator x weights replicate_wgts factor p hstable hm, getD_map_range _ _ hk,
    estimate_columns_eq, List.map_map]
  rfl

/-- Length of the accumulated sampling variances. -/
theorem sampling_sums_length
    (hstable : ∀ X w, ((estimator X w).estimates).length = p) :
    (sampling_sums estimator x weights replicate_wgts factor).length =
      out_len estimator x weights replicate_wgts factor := by
  unfold sampling_sums
  rw [← List.foldl_map, foldl_zipWith_add_length]
  · simp
  · intro t ht
    rcases List.mem_map.mp ht with ⟨u, hu, rfl⟩
    rcases List.mem_map.mp ((by rwa [collected] at hu : u ∈ (List.range x.length).map
      (imputation_task estimator x weights replicate_wgts factor))) with ⟨i, hi, rfl⟩
    rw [List.length_replicate, imputation_task_snd_length estimator x weights replicate_wgts factor p hstable]
    have h0 : 0 < x.length := by
      rcases List.mem_range.mp hi with h
      omega
    rw [out_len_eq estimator x weights replicate_wgts factor p hstable h0]

/-- Length of the returned sampling variances. -/
theorem sampling_variances_length
    (hstable : ∀ X w, ((estimator X w).estimates).length = p) :
    (sampling_variances estimator x weights replicate_wgts factor).length =
      out_len estimator x weights replicate_wgts factor := by
  unfold sampling_variances
  rw [List.length_map, sampling_sums_length estimator x weights replicate_wgts factor p hstable]

/-- Entry `k` of the returned sampling variances is `(1/m)` times the sum of
the per-imputation sampling variances. -/
theorem sampling_variances_getD
    (hstable : ∀ X w, ((estimator X w).estimates).length = p) (hm : 0 < x.length)
    (k : ℕ) (hk : k < p) :
    (sampling_variances estimator x weights replicate_wgts factor).getD k 0 =
      combined_sampling_variance estimator x weights replicate_wgts factor k := by
  have hls : k < (sampling_sums estimator x weights replicate_wgts factor).length := by
    rw [sampling_sums_length estimator x weights replicate_wgts factor p hstable,
      out_len_eq estimator x weights replicate_wgts factor p hstable hm]
    exact hk
  unfold sampling_variances
  rw [List.getD_eq_getElem _ _ (by simpa using hls), List.getElem_map,
    ← List.getD_eq_getElem _ _ hls,
    sampling_sums_getD estimator x weights replicate_wgts factor p hstable hm k hk]
  unfold combined_sampling_variance
  ring

/-- Length of the returned imputation variances. -/
theorem imputation_variances_length
    (hstable : ∀ X w, ((estimator X w).estimates).length = p) :
    (imputation_variances estimator x weights replicate_wgts factor).length =
      out_len estimator x weights replicate_wgts factor := by
  unfold imputation_variances
  split
  · rw [calc_replication_variance_length,
      final_estimates_length estimator x weights replicate_wgts factor]
  · rw [List.length_replicate,
      sampling_variances_length estimator x weights replicate_wgts factor p hstable]

/-- Entry `k` of the returned imputation variances matches the claim's
formula. -/
theorem imputation_variances_getD
    (hstable : ∀ X w, ((estimator X w).estimates).length = p) (hm : 0 < x.length)
    (k : ℕ) (hk : k < p) :
    (imputation_variances estimator x weights replicate_wgts factor).getD k 0 =
      combined_imputation_variance estimator x weights k := by
  unfold imputation_variances combined_imputation_variance
  split
  · rename_i hmore
    rw [calc_replication_variance_getD _ _ _ _ (by
        rw [final_estimates_length estimator x weights replicate_wgts factor,
          out_len_eq estimator x weights replicate_wgts factor p hstable hm]
        exact hk),
      estimate_columns_eq, List.map_map,
      final_estimates_getD estimator x weights replicate_wgts factor p hstable hm k hk, mul_comm]
    rfl
  · rename_i hnot
    rw [getD_replicate_lt (by
      rw [sampling_variances_length estimator x weights replicate_wgts factor p hstable,
        out_len_eq estimator x weights replicate_wgts factor p hstable hm]
      exact hk)]

/-- Entry `k` of the standard errors computed from given variance vectors. -/
theorem calc_standard_errors_getD (vs vi : List ℚ) (n : ℕ) (k : ℕ)
    (h1 : k < vs.length) (h2 : k < vi.length) :
    (calc_standard_errors_from_variances vs vi n).getD k 0 =
      Real.sqrt ((vs.getD k 0 : ℝ) + (vi.getD k 0 : ℝ) * (1 + 1 / (n : ℝ))) := by
  unfold calc_standard_errors_from_variances
  rw [getD_zipWith_lt _ _ _ _ 0 0 0 h1 h2]

end enginelemmas

section claims139

variable (estimator : Mat → Vec → Estimates) (x : List Mat) (weights : List Vec)
  (replicate_wgts : List Mat) (factor : ℚ)

/-- Full characterization of a successful engine call with a stable-length
estimator: shared workhorse behind the Rubin-rule facts below. -/
theorem replicate_estimates_spec (p : ℕ)
    (hstable : ∀ X w, ((estimator X w).estimates).length = p)
    (hw : weights.length = 1 ∨ weights.length = x.length)
    (hr : replicate_wgts.length = 1 ∨ replicate_wgts.length = x.length)
    (hm : 1 ≤ x.length) :
    ∃ re, replicate_estimates estimator x weights replicate_wgts factor = some re ∧
      re.final_estimates.length = p ∧
      re.sampling_variances.length = p ∧
      re.imputation_variances.length = p ∧
      re.standard_errors.length = p ∧
      (∀ k, k < p → re.final_estimates.getD k 0 =
        combined_point_estimate estimator x weights k) ∧
      (∀ k, k < p → re.sampling_variances.getD k 0 =
        combined_sampling_variance estimator x weights replicate_wgts factor k) ∧
      (∀ k, k < p → re.imputation_variances.getD k 0 =
        combined_imputation_variance estimator x weights k) ∧
      (∀ k, k < p → re.standard_errors.getD k 0 =
        Real.sqrt ((combined_sampling_variance estimator x weights replicate_wgts factor k : ℝ) +
          (1 + 1 / (x.length : ℝ)) * (combined_imputation_variance estimator x weights k : ℝ))) := by
  have hm0 : 0 < x.length := hm
  have hout := out_len_eq estimator x weights replicate_wgts factor p hstable hm0
  have hfl : (final_estimates estimator x weights replicate_wgts factor).length = p := by
    rw [final_estimates_length estimator x weights replicate_wgts factor, hout]
  have hsl : (sampling_variances estimator x weights replicate_wgts factor).length = p := by
    rw [sampling_variances_length estimator x weights replicate_wgts factor p hstable, hout]
  have hil : (imputation_variances estimator x weights replicate_wgts factor).length = p := by
    rw [imputation_variances_length estimator x weights replicate_wgts factor p hstable, hout]
  refine ⟨{ parameter_names := (((collected estimator x weights replicate_wgts factor).getLast?).map
                (fun t => t.1.parameter_names)).getD [],
            final_estimates := final_estimates estimator x weights replicate_wgts factor,
            sampling_variances := sampling_variances estimator x weights replicate_wgts factor,
            imputation_variances := imputation_variances estimator x weights replicate_wgts factor,
            standard_errors := calc_standard_errors_from_variances
              (sampling_variances estimator x weights replicate_wgts factor)
              (imputation_variances estimator x weights replicate_wgts factor) x.length },
    ?_, hfl, hsl, hil, ?_, ?_, ?_, ?_, ?_⟩
  · unfold replicate_estimates
    rw [if_pos ⟨hw, hr⟩]
  · unfold calc_standard_errors_from_variances
    rw [List.length_zipWith, hsl, hil, min_self]
  · intro k hk
    exact final_estimates_getD estimator x weights replicate_wgts factor p hstable hm0 k hk
  · intro k hk
    exact sampling_variances_getD estimator x weights replicate_wgts factor p hstable hm0 k hk
  · intro k hk
    exact imputation_variances_getD estimator x weights replicate_wgts factor p hstable hm0 k hk
  · intro k hk
    rw [calc_standard_errors_getD _ _ _ k (by rw [hsl]; exact hk) (by rw [hil]; exact hk),
      sampling_variances_getD estimator x weights replicate_wgts factor p hstable hm0 k hk,
      imputation_variances_getD estimator x weights replicate_wgts factor p hstable hm0 k hk]
    congr 1
    ring

/-- C1: for every call to `replicate_estimates` with `m ≥ 1` imputations (and
an estimator of stable output length, without which the source call aborts on
a matrix-dimension panic), the four returned vectors satisfy Rubin's rules
componentwise: each final estimate is the arithmetic mean of the
per-imputation point estimates, each per-imputation sampling variance is the
factor `α` times the sum over replicate columns of squared deviations of the
replicate estimate from that imputation's point estimate and the returned
sampling variance is `(1/m)` times their sum, the imputation variance is
`1/(m−1)` times the sum of squared deviations of the per-imputation estimates
from the final estimate for `m > 1` and `0` for `m = 1`, and each standard
error is `sqrt(V_samp + (1 + 1/m) · V_imp)`. -/
theorem replicate_estimates_rubin_rules (p : ℕ)
    (hstable : ∀ X w, ((estimator X w).estimates).length = p)
    (hw : weights.length = 1 ∨ weights.length = x.length)
    (hr : replicate_wgts.length = 1 ∨ replicate_wgts.length = x.length)
    (hm : 1 ≤ x.length) :
    ∃ re, replicate_estimates estimator x weights replicate_wgts factor = some re ∧
      re.final_estimates.length = p ∧
      re.sampling_variances.length = p ∧
      re.imputation_variances.length = p ∧
      re.standard_errors.length = p ∧
      (∀ k, k < p → re.final_estimates.getD k 0 =
        combined_point_estimate estimator x weights k) ∧
      (∀ k, k < p → re.sampling_variances.getD k 0 =
        combined_sampling_variance estimator x weights replicate_wgts factor k) ∧
      (∀ k, k < p → re.imputation_variances.getD k 0 =
        combined_imputation_variance estimator x weights k) ∧
      (∀ k, k < p → re.standard_errors.getD k 0 =
        Real.sqrt ((combined_sampling_variance estimator x weights replicate_wgts factor k : ℝ) +
          (1 + 1 / (x.length : ℝ)) * (combined_imputation_variance estimator x weights k : ℝ))) :=
  replicate_estimates_spec estimator x weights replicate_wgts factor p hstable hw hr hm

/-- C3: when the effective replicate-weight matrix of every imputation has
`r = 0` columns, the returned sampling variances are exactly zero and each
standard error is the square root of `(1 + 1/m)` times the corresponding
imputation variance entry. -/
theorem replicate_estimates_zero_replicate_columns (p : ℕ)
    (hstable : ∀ X w, ((estimator X w).estimates).length = p)
    (hw : weights.length = 1 ∨ weights.length = x.length)
    (hr : replicate_wgts.length = 1 ∨ replicate_wgts.length = x.length)
    (hm : 1 ≤ x.length)
    (hzero : ∀ i, i < x.length →
      ncols (resolved_replicate_weights replicate_wgts i) = 0) :
    ∃ re, replicate_estimates estimator x weights replicate_wgts factor = some re ∧
      re.sampling_variances = List.replicate p 0 ∧
      (∀ k, k < p → re.standard_errors.getD k 0 =
        Real.sqrt ((1 + 1 / (x.length : ℝ)) * (re.imputation_variances.getD k 0 : ℝ))) := by
  obtain ⟨re, hsome, _, hsl, _, _, _, hsv, hiv, hse⟩ :=
    replicate_estimates_spec estimator x weights replicate_wgts factor p hstable hw hr hm
  have hzerosv : ∀ k, k < p →
      combined_sampling_variance estimator x weights replicate_wgts factor k = 0 := by
    intro k _
    unfold combined_sampling_variance
    have hall : ∀ i ∈ List.range x.length,
        imputation_sampling_variance estimator x weights replicate_wgts factor i k = 0 := by
      intro i hi
      unfold imputation_sampling_variance
      rw [hzero i (List.mem_range.mp hi)]
      simp
    rw [List.map_congr_left hall]
    simp
  refine ⟨re, hsome, ?_, ?_⟩
  · refine List.ext_getElem (by rw [hsl, List.length_replicate]) ?_
    intro k h1 h2
    rw [← List.getD_eq_getElem _ 0 h1, ← List.getD_eq_getElem _ 0 h2,
      hsv k (by rwa [hsl] at h1), hzerosv k (by rwa [hsl] at h1),
      getD_replicate_lt (by rwa [List.length_replicate] at h2)]
  · intro k hk
    rw [hse k hk, hzerosv k hk, hiv k hk]
    push_cast
    congr 1
    ring

end claims139

/-- Reindexing of per-imputation inputs by a permutation of the imputations. -/
def permuted {α : Type} (d : α) (m : ℕ) (σ : Equiv.Perm (Fin m)) (l : List α) : List α :=
  List.ofFn (fun i => l.getD ((σ i).val) d)

/-- Reindexing that leaves a shared (length-one) input list alone, matching
the claim's side condition that per-imputation weights are permuted only when
one per imputation is supplied. -/
def permuted_shared {α : Type} (d : α) (m : ℕ) (σ : Equiv.Perm (Fin m)) (l : List α) : List α :=
  if l.length = 1 then l else permuted d m σ l

section claim9

variable (estimator : Mat → Vec → Estimates) (x : List Mat) (weights : List Vec)
  (replicate_wgts : List Mat) (factor : ℚ)

/-- C9: permuting the order of the imputation matrices, together with their
per-imputation weight vectors and replicate-weight matrices when one per
imputation is supplied, yields identical final estimates, sampling variances,
imputation variances and standard errors. -/
theorem replicate_estimates_permutation_invariance (p : ℕ)
    (hstable : ∀ X w, ((estimator X w).estimates).length = p)
    (hw : weights.length = 1 ∨ weights.length = x.length)
    (hr : replicate_wgts.length = 1 ∨ replicate_wgts.length = x.length)
    (hm : 1 ≤ x.length) (σ : Equiv.Perm (Fin x.length)) :
    ∃ re re',
      replicate_estimates estimator x weights replicate_wgts factor = some re ∧
      replicate_estimates estimator (permuted [] x.length σ x)
        (permuted_shared [] x.length σ weights)
        (permuted_shared [] x.length σ replicate_wgts) factor = some re' ∧
      re'.final_estimates = re.final_estimates ∧
      re'.sampling_variances = re.sampling_variances ∧
      re'.imputation_variances = re.imputation_variances ∧
      re'.standard_errors = re.standard_errors := by
  have hxlen : (permuted [] x.length σ x).length = x.length := by simp [permuted]
  have hwlen : (permuted_shared [] x.length σ weights).length = weights.length := by
    unfold permuted_shared
    split
    · rfl
    · rename_i h1
      rcases hw with h | h
      · exact absurd h h1
      · simp [permuted, h]
  have hrlen : (permuted_shared [] x.length σ replicate_wgts).length = replicate_wgts.length := by
    unfold permuted_shared
    split
    · rfl
    · rename_i h1
      rcases hr with h | h
      · exact absurd h h1
      · simp [permuted, h]
  have hxget : ∀ i : Fin x.length,
      (permuted [] x.length σ x).getD i.val [] = x.getD ((σ i).val) [] := by
    intro i
    unfold permuted
    rw [getD_ofFn_lt _ _ i.isLt]
  have hwget : ∀ i : Fin x.length,
      resolved_weight (permuted_shared [] x.length σ weights) i.val =
        resolved_weight weights ((σ i).val) := by
    intro i
    unfold permuted_shared resolved_weight
    by_cases h1 : weights.length = 1
    · rw [if_pos h1, if_neg (by omega), if_neg (by omega)]
    · have hmlen : weights.length = x.length := hw.resolve_left h1
      have hm2 : 1 < x.length := by omega
      have hplen : (permuted [] x.length σ weights).length = x.length := by simp [permuted]
      rw [if_neg h1, if_pos (by rw [hplen]; exact hm2), if_pos (by rw [hmlen]; exact hm2)]
      unfold permuted
      rw [getD_ofFn_lt _ _ i.isLt]
  have hrget : ∀ i : Fin x.length,
      resolved_replicate_weights (permuted_shared [] x.length σ replicate_wgts) i.val =
        resolved_replicate_weights replicate_wgts ((σ i).val) := by
    intro i
    unfold permuted_shared resolved_replicate_weights
    by_cases h1 : replicate_wgts.length = 1
    · rw [if_pos h1, if_neg (by omega), if_pos h1, if_neg (by omega), if_pos h1]
    · have hmlen : replicate_wgts.length = x.length := hr.resolve_left h1
      have hm2 : 1 < x.length := by omega
      have hplen : (permuted [] x.length σ replicate_wgts).length = x.length := by simp [permuted]
      rw [if_neg h1, if_neg (by rw [hplen]; omega), if_neg (by rw [hplen]; omega),
        if_neg (by omega), if_neg h1]
      unfold permuted
      rw [getD_ofFn_lt _ _ i.isLt]
  have hpe : ∀ (i : Fin x.length) (k : ℕ),
      point_estimate estimator (permuted [] x.length σ x)
        (permuted_shared [] x.length σ weights) i.val k =
        point_estimate estimator x weights ((σ i).val) k := by
    intro i k
    unfold point_estimate
    rw [hxget i, hwget i]
  have hcpe : ∀ k,
      combined_point_estimate estimator (permuted [] x.length σ x)
        (permuted_shared [] x.length σ weights) k =
        combined_point_estimate estimator x weights k := by
    intro k
    unfold combined_point_estimate
    rw [hxlen]
    congr 1
    exact sum_map_range_perm x.length σ _ _ (fun i => hpe i k)
  have hisv : ∀ (i : Fin x.length) (k : ℕ),
      imputation_sampling_variance estimator (permuted [] x.length σ x)
        (permuted_shared [] x.length σ weights)
        (permuted_shared [] x.length σ replicate_wgts) factor i.val k =
        imputation_sampling_variance estimator x weights replicate_wgts factor ((σ i).val) k := by
    intro i k
    unfold imputation_sampling_variance replicate_estimate point_estimate
    rw [hxget i, hwget i, hrget i]
  have hcsv : ∀ k,
      combined_sampling_variance estimator (permuted [] x.length σ x)
        (permuted_shared [] x.length σ weights)
        (permuted_shared [] x.length σ replicate_wgts) factor k =
        combined_sampling_variance estimator x weights replicate_wgts factor k := by
    intro k
    unfold combined_sampling_variance
    rw [hxlen]
    congr 1
    exact sum_map_range_perm x.length σ _ _ (fun i => hisv i k)
  have hciv : ∀ k,
      combined_imputation_variance estimator (permuted [] x.length σ x)
        (permuted_shared [] x.length σ weights) k =
        combined_imputation_variance estimator x weights k := by
    intro k
    unfold combined_imputation_variance
    rw [hxlen]
    split
    · congr 1
      refine sum_map_range_perm x.length σ _ _ (fun i => ?_)
      rw [hpe i k, hcpe k]
    · rfl
  obtain ⟨re, hsome, hfl, hsl, hil, hsel, hfe, hsv, hiv, hse⟩ :=
    replicate_estimates_spec estimator x weights replicate_wgts factor p hstable hw hr hm
  obtain ⟨re', hsome', hfl', hsl', hil', hsel', hfe', hsv', hiv', hse'⟩ :=
    replicate_estimates_spec estimator (permuted [] x.length σ x)
      (permuted_shared [] x.length σ weights) (permuted_shared [] x.length σ replicate_wgts)
      factor p hstable (by rw [hwlen, hxlen]; exact hw) (by rw [hrlen, hxlen]; exact hr)
      (by rw [hxlen]; exact hm)
  refine ⟨re, re', hsome, hsome', ?_, ?_, ?_, ?_⟩
  · refine List.ext_getElem (by rw [hfl, hfl']) ?_
    intro k h1 h2
    rw [← List.getD_eq_getElem _ 0 h1, ← List.getD_eq_getElem _ 0 h2,
      hfe' k (by rwa [hfl'] at h1), hfe k (by rwa [hfl] at h2), hcpe k]
  · refine List.ext_getElem (by rw [hsl, hsl']) ?_
    intro k h1 h2
    rw [← List.getD_eq_getElem _ 0 h1, ← List.getD_eq_getElem _ 0 h2,
      hsv' k (by rwa [hsl'] at h1), hsv k (by rwa [hsl] at h2), hcsv k]
  · refine List.ext_getElem (by rw [hil, hil']) ?_
    intro k h1 h2
    rw [← List.getD_eq_getElem _ 0 h1, ← List.getD_eq_getElem _ 0 h2,
      hiv' k (by rwa [hil'] at h1), hiv k (by rwa [hil] at h2), hciv k]
  · refine List.ext_getElem (by rw [hsel, hsel']) ?_
    intro k h1 h2
    rw [← List.getD_eq_getElem _ 0 h1, ← List.getD_eq_getElem _ 0 h2,
      hse' k (by rwa [hsel'] at h1), hse k (by rwa [hsel] at h2), hcsv k, hciv k, hxlen]

end claim9

/-- Concrete estimator used by the engine witnesses: one parameter, the total
weight.  Its output length is 1 for every input. -/
def witness_estimator : Mat → Vec → Estimates :=
  fun _ w => { parameter_names := ["w"], estimates := [w.sum] }

/-- Concrete imputation list used by the engine witnesses. -/
def witness_x : List Mat := [[[1]], [[2]]]

/-- Concrete shared weight list used by the engine witnesses. -/
def witness_weights : List Vec := [[1]]

/-- Concrete shared replicate-weight list (one column) used by witnesses. -/
def witness_repwgts : List Mat := [[[2]]]

/-- Concrete shared replicate-weight list with zero columns. -/
def witness_repwgts_empty : List Mat := [[[]]]

/-- Permutation of the two witness imputations. -/
def witness_perm : Equiv.Perm (Fin witness_x.length) :=
  Equiv.swap ⟨0, by decide⟩ ⟨1, by decide⟩

/-- Witness for the Rubin-rules theorem at a concrete two-imputation call. -/
theorem replicate_estimates_rubin_rules_witness :
    (∀ X w, ((witness_estimator X w).estimates).length = 1) ∧
    (witness_weights.length = 1 ∨ witness_weights.length = witness_x.length) ∧
    (witness_repwgts.length = 1 ∨ witness_repwgts.length = witness_x.length) ∧
    1 ≤ witness_x.length ∧
    (∃ re, replicate_estimates witness_estimator witness_x witness_weights witness_repwgts 1 =
        some re ∧
      re.final_estimates.length = 1 ∧
      re.sampling_variances.length = 1 ∧
      re.imputation_variances.length = 1 ∧
      re.standard_errors.length = 1 ∧
      (∀ k, k < 1 → re.final_estimates.getD k 0 =
        combined_point_estimate witness_estimator witness_x witness_weights k) ∧
      (∀ k, k < 1 → re.sampling_variances.getD k 0 =
        combined_sampling_variance witness_estimator witness_x witness_weights witness_repwgts 1 k) ∧
      (∀ k, k < 1 → re.imputation_variances.getD k 0 =
        combined_imputation_variance witness_estimator witness_x witness_weights k) ∧
      (∀ k, k < 1 → re.standard_errors.getD k 0 =
        Real.sqrt ((combined_sampling_variance witness_estimator witness_x witness_weights
            witness_repwgts 1 k : ℝ) +
          (1 + 1 / (witness_x.length : ℝ)) *
            (combined_imputation_variance witness_estimator witness_x witness_weights k : ℝ)))) :=
  ⟨fun _ _ => rfl, Or.inl rfl, Or.inl rfl, by decide,
    replicate_estimates_rubin_rules witness_estimator witness_x witness_weights witness_repwgts 1 1
      (fun _ _ => rfl) (Or.inl rfl) (Or.inl rfl) (by decide)⟩

/-- Witness for the zero-replicate-columns theorem at a concrete call. -/
theorem replicate_estimates_zero_replicate_columns_witness :
    (∀ X w, ((witness_estimator X w).estimates).length = 1) ∧
    (witness_weights.length = 1 ∨ witness_weights.length = witness_x.length) ∧
    (witness_repwgts_empty.length = 1 ∨ witness_repwgts_empty.length = witness_x.length) ∧
    1 ≤ witness_x.length ∧
    (∀ i, i < witness_x.length →
      ncols (resolved_replicate_weights witness_repwgts_empty i) = 0) ∧
    (∃ re, replicate_estimates witness_estimator witness_x witness_weights
        witness_repwgts_empty 1 = some re ∧
      re.sampling_variances = List.replicate 1 0 ∧
      (∀ k, k < 1 → re.standard_errors.getD k 0 =
        Real.sqrt ((1 + 1 / (witness_x.length : ℝ)) *
          (re.imputation_variances.getD k 0 : ℝ)))) :=
  ⟨fun _ _ => rfl, Or.inl rfl, Or.inl rfl, by decide, by decide,
    replicate_estimates_zero_replicate_columns witness_estimator witness_x witness_weights
      witness_repwgts_empty 1 1 (fun _ _ => rfl) (Or.inl rfl) (Or.inl rfl) (by decide) (by decide)⟩

/-- Witness for the permutation-invariance theorem at a concrete call that
swaps the two imputations. -/
theorem replicate_estimates_permutation_invariance_witness :
    (∀ X w, ((witness_estimator X w).estimates).length = 1) ∧
    (witness_weights.length = 1 ∨ witness_weights.length = witness_x.length) ∧
    (witness_repwgts.length = 1 ∨ witness_repwgts.length = witness_x.length) ∧
    1 ≤ witness_x.length ∧
    (∃ re re',
      replicate_estimates witness_estimator witness_x witness_weights witness_repwgts 1 =
        some re ∧
      replicate_estimates witness_estimator (permuted [] witness_x.length witness_perm witness_x)
        (permuted_shared [] witness_x.length witness_perm witness_weights)
        (permuted_shared [] witness_x.length witness_perm witness_repwgts) 1 = some re' ∧
      re'.final_estimates = re.final_estimates ∧
      re'.sampling_variances = re.sampling_variances ∧
      re'.imputation_variances = re.imputation_variances ∧
      re'.standard_errors = re.standard_errors) :=
  ⟨fun _ _ => rfl, Or.inl rfl, Or.inl rfl, by decide,
    replicate_estimates_permutation_invariance witness_estimator witness_x witness_weights
      witness_repwgts 1 1 (fun _ _ => rfl) (Or.inl rfl) (Or.inl rfl) (by decide) witness_perm⟩

end replication

/-- Summing a list of non-`NaN` scalars is the embedded rational sum. -/
theorem F_sum_val (l : List F) (h : ∀ e ∈ l, e.isNaN = false) :
    F.sum l = F.val ((l.map F.toQ).sum) := by
  have key : ∀ (a : ℚ), l.foldl F.add (F.val a) = F.val (a + (l.map F.toQ).sum) := by
    induction l with
    | nil => intro a; simp [F.add]
    | cons e rest ih =>
      intro a
      have he : e.isNaN = false := h e (by simp)
      cases e with
      | nan => simp [F.isNaN] at he
      | val q =>
        have ih' := fun a => ih (fun e' he' => h e' (by simp [he'])) a
        simp only [List.foldl_cons, F.add, List.map_cons, List.sum_cons, ih', F.toQ]
        rw [add_assoc]
  simpa using key 0

namespace estimates

/-- Mirrors `Estimates` (src/estimates.rs, lines 5-8) at kernel level, over
`NaN`-aware scalars. -/
structure Estimates where
  parameter_names : List String
  estimates : List F
deriving DecidableEq, Repr

/-- Kinds of fatal kernel failures: the two raised by
`assert_validity_of_data_and_weights` (src/estimates.rs, lines 35-40), and
all later panics of a kernel body bundled as `other`. -/
inductive KernelError where
  | dimensionMismatch (which : String)
  | nanInWeights (which : String)
  | other (message : String)
deriving DecidableEq, Repr

/-- Mirrors the `assert_validity_of_data_and_weights` macro (src/estimates.rs,
lines 35-40): row count of `x` against length of `wgt`, then no `NaN` in
`wgt`. -/
def assert_validity_of_data_and_weights (x : MatF) (wgt : VecF) (estimate_name : String) :
    Option KernelError :=
  if x.length ≠ wgt.length then some (.dimensionMismatch estimate_name)
  else if wgt.any (fun w => w.isNaN) then some (.nanInWeights estimate_name)
  else none

/-- Entry `(r, c)` of a kernel-level matrix. -/
def entry (x : MatF) (r c : ℕ) : F := (x.getD r []).getD c F.nan

/-- Body of `mean` after its validity check (src/estimates.rs, lines 223-233):
per column, the dot product of the `NaN`-cleaned column with the weights
divided by the dot product of the `NaN` indicator column with the weights. -/
def mean_body (x : MatF) (wgt : VecF) : Estimates :=
  { parameter_names := (List.range (ncols x)).map (fun j => "mean_x" ++ toString (j + 1)),
    estimates := (List.range (ncols x)).map (fun j =>
      let weighted_sum := F.sum ((List.range x.length).map (fun i =>
        F.mul (if (entry x i j).isNaN then F.val 0 else entry x i j) (wgt.getD i F.nan)))
      let sum_of_weights := F.sum ((List.range x.length).map (fun i =>
        F.mul (if (entry x i j).isNaN then F.val 0 else F.val 1) (wgt.getD i F.nan)))
      F.div weighted_sum sum_of_weights) }

/-- Mirrors `mean` (src/estimates.rs, lines 220-234). -/
def mean (x : MatF) (wgt : VecF) : Except KernelError Estimates :=
  match assert_validity_of_data_and_weights x wgt "mean" with
  | some e => .error e
  | none => .ok (mean_body x wgt)

/-- C4: for a `NaN`-free weight vector with as many entries as `x` has rows,
the mean kernel succeeds, names its parameters `mean_xj`, and returns per
column the quotient of the weighted sum of non-`NaN` entries by the sum of
the weights over those same rows; an all-`NaN` column yields `NaN`. -/
theorem mean_weighted_nan_aware (x : MatF) (wgt : VecF)
    (hrows : x.length = wgt.length)
    (hnan : ∀ w ∈ wgt, w.isNaN = false) :
    ∃ est, mean x wgt = .ok est ∧
      est.parameter_names = (List.range (ncols x)).map (fun j => "mean_x" ++ toString (j + 1)) ∧
      est.estimates.length = ncols x ∧
      (∀ j, j < ncols x →
        est.estimates.getD j F.nan = F.div
          (F.val (((List.range x.length).map (fun i =>
            if (entry x i j).isNaN then 0 else (wgt.getD i F.nan).toQ * (entry x i j).toQ)).sum))
          (F.val (((List.range x.length).map (fun i =>
            if (entry x i j).isNaN then 0 else (wgt.getD i F.nan).toQ)).sum))) ∧
      (∀ j, j < ncols x → (∀ i, i < x.length → (entry x i j).isNaN = true) →
        est.estimates.getD j F.nan = F.nan) := by
  have hvalid : assert_validity_of_data_and_weights x wgt "mean" = none := by
    unfold assert_validity_of_data_and_weights
    rw [if_neg (by omega), if_neg (by
      intro hany
      rcases List.any_eq_true.mp hany with ⟨w, hwmem, hwnan⟩
      rw [hnan w hwmem] at hwnan
      exact Bool.false_ne_true hwnan)]
  have hwgetnan : ∀ i, i < x.length → (wgt.getD i F.nan).isNaN = false := by
    intro i hi
    have hi' : i < wgt.length := by omega
    rw [List.getD_eq_getElem _ _ hi']
    exact hnan _ (List.getElem_mem hi')
  have hdiv : ∀ j, j < ncols x →
      (F.sum ((List.range x.length).map (fun i =>
          F.mul (if (entry x i j).isNaN then F.val 0 else entry x i j) (wgt.getD i F.nan))) =
        F.val (((List.range x.length).map (fun i =>
          if (entry x i j).isNaN then 0 else (wgt.getD i F.nan).toQ * (entry x i j).toQ)).sum)) ∧
      (F.sum ((List.range x.length).map (fun i =>
          F.mul (if (entry x i j).isNaN then F.val 0 else F.val 1) (wgt.getD i F.nan))) =
        F.val (((List.range x.length).map (fun i =>
          if (entry x i j).isNaN then 0 else (wgt.getD i F.nan).toQ)).sum)) := by
    intro j _
    constructor
    · rw [F_sum_val _ (by
        intro e he
        rcases List.mem_map.mp he with ⟨i, hi, rfl⟩
        have hw := hwgetnan i (List.mem_range.mp hi)
        cases hwv : wgt.getD i F.nan with
        | nan => rw [hwv] at hw; simp [F.isNaN] at hw
        | val q =>
          cases hxe : entry x i j with
          | nan => simp [F.isNaN, F.mul]
          | val a => simp [F.isNaN, F.mul])]
      congr 1
      rw [List.map_map]
      congr 1
      apply List.map_congr_left
      intro i hi
      have hw := hwgetnan i (List.mem_range.mp hi)
      simp only [Function.comp_apply]
      cases hwv : wgt.getD i F.nan with
      | nan => rw [hwv] at hw; simp [F.isNaN] at hw
      | val q =>
        cases hxe : entry x i j with
        | nan => simp [F.isNaN, F.mul, F.toQ]
        | val a => simp [F.isNaN, F.mul, F.toQ, mul_comm]
    · rw [F_sum_val _ (by
        intro e he
        rcases List.mem_map.mp he with ⟨i, hi, rfl⟩
        have hw := hwgetnan i (List.mem_range.mp hi)
        cases hwv : wgt.getD i F.nan with
        | nan => rw [hwv] at hw; simp [F.isNaN] at hw
        | val q =>
          cases hxe : entry x i j with
          | nan => simp [F.isNaN, F.mul]
          | val a => simp [F.isNaN, F.mul])]
      congr 1
      rw [List.map_map]
      congr 1
      apply List.map_congr_left
      intro i hi
      have hw := hwgetnan i (List.mem_range.mp hi)
      simp only [Function.comp_apply]
      cases hwv : wgt.getD i F.nan with
      | nan => rw [hwv] at hw; simp [F.isNaN] at hw
      | val q =>
        cases hxe : entry x i j with
        | nan => simp [F.isNaN, F.mul, F.toQ]
        | val a => simp [F.isNaN, F.mul, F.toQ]
  refine ⟨mean_body x wgt, (by unfold mean; rw [hvalid]), rfl, by simp [mean_body], ?_, ?_⟩
  · intro j hj
    show ((List.range (ncols x)).map _).getD j F.nan = _
    rw [getD_map_range _ _ hj]
    simp only
    rw [(hdiv j hj).1, (hdiv j hj).2]
  · intro j hj hall
    show ((List.range (ncols x)).map _).getD j F.nan = _
    rw [getD_map_range _ _ hj]
    simp only
    rw [(hdiv j hj).1, (hdiv j hj).2]
    have hz1 : ((List.range x.length).map (fun i =>
        if (entry x i j).isNaN then 0 else (wgt.getD i F.nan).toQ * (entry x i j).toQ)).sum = 0 := by
      rw [List.map_congr_left (fun i hi => by
        rw [hall i (List.mem_range.mp hi)]
        simp : ∀ i ∈ List.range x.length, _ = (0 : ℚ))]
      simp
    have hz2 : ((List.range x.length).map (fun i =>
        if (entry x i j).isNaN then 0 else (wgt.getD i F.nan).toQ)).sum = 0 := by
      rw [List.map_congr_left (fun i hi => by
        rw [hall i (List.mem_range.mp hi)]
        simp : ∀ i ∈ List.range x.length, _ = (0 : ℚ))]
      simp
    rw [hz1, hz2]
    simp [F.div]

/-- Concrete data matrix for kernel witnesses: second column all `NaN`. -/
def witness_xf : MatF := [[F.val 1, F.nan], [F.val 2, F.nan]]

/-- Concrete `NaN`-free weights for kernel witnesses. -/
def witness_wgtf : VecF := [F.val 1, F.val 1]

/-- Witness for the mean-kernel theorem at a concrete input with an all-`NaN`
column. -/
theorem mean_weighted_nan_aware_witness :
    witness_xf.length = witness_wgtf.length ∧
    (∀ w ∈ witness_wgtf, w.isNaN = false) ∧
    (∃ est, mean witness_xf witness_wgtf = .ok est ∧
      est.parameter_names =
        (List.range (ncols witness_xf)).map (fun j => "mean_x" ++ toString (j + 1)) ∧
      est.estimates.length = ncols witness_xf ∧
      (∀ j, j < ncols witness_xf →
        est.estimates.getD j F.nan = F.div
          (F.val (((List.range witness_xf.length).map (fun i =>
            if (entry witness_xf i j).isNaN then 0
            else (witness_wgtf.getD i F.nan).toQ * (entry witness_xf i j).toQ)).sum))
          (F.val (((List.range witness_xf.length).map (fun i =>
            if (entry witness_xf i j).isNaN then 0
            else (witness_wgtf.getD i F.nan).toQ)).sum))) ∧
      (∀ j, j < ncols witness_xf →
        (∀ i, i < witness_xf.length → (entry witness_xf i j).isNaN = true) →
        est.estimates.getD j F.nan = F.nan)) :=
  ⟨rfl, by decide, mean_weighted_nan_aware witness_xf witness_wgtf rfl (by decide)⟩

/-- Count of `NaN` entries of column `cc` (src/estimates.rs, line 76). -/
def missingcases (x : MatF) (cc : ℕ) : ℕ :=
  ((List.range x.length).filter (fun rr => (entry x rr cc).isNaN)).length

/-- Summed weight of the `NaN` rows of column `cc` (src/estimates.rs,
line 77); weights are exact because the validity check excluded `NaN`. -/
def missingweights (x : MatF) (wgt : VecF) (cc : ℕ) : ℚ :=
  ((List.range x.length).map (fun rr =>
    if (entry x rr cc).isNaN then (wgt.getD rr F.nan).toQ else 0)).sum

/-- Count of rows with some `NaN` entry (src/estimates.rs, lines 94-102). -/
def count_missings_listwise (x : MatF) : ℕ :=
  ((List.range x.length).filter (fun rr => (x.getD rr []).any (fun e => e.isNaN))).length

/-- Summed weight of the rows with some `NaN` entry (src/estimates.rs,
lines 94-102). -/
def weights_missings_listwise (x : MatF) (wgt : VecF) : ℚ :=
  ((List.range x.length).map (fun rr =>
    if (x.getD rr []).any (fun e => e.isNaN) then (wgt.getD rr F.nan).toQ else 0)).sum

/-- Body of `missings` after its validity check (src/estimates.rs, lines
70-121): per column six entries (missing/valid cases, weights, percentages),
then six listwise aggregates, names and values pushed in parallel. -/
def missings_body (x : MatF) (wgt : VecF) : Estimates :=
  let sum_of_weights : ℚ := (wgt.map F.toQ).sum
  { parameter_names := ((List.range (ncols x)).map (fun cc =>
      ["missingcases_x" ++ toString (cc + 1),
       "missingweights_x" ++ toString (cc + 1),
       "percmissing_x" ++ toString (cc + 1),
       "validcases_x" ++ toString (cc + 1),
       "validweights_x" ++ toString (cc + 1),
       "percvalid_x" ++ toString (cc + 1)])).flatten ++
      ["missingcases_listwise", "missingweights_listwise", "percmissing_listwise",
       "validcases_listwise", "validweights_listwise", "percvalid_listwise"],
    estimates := ((List.range (ncols x)).map (fun cc =>
      [F.val (missingcases x cc : ℚ),
       F.val (missingweights x wgt cc),
       F.div (F.val (missingweights x wgt cc)) (F.val sum_of_weights),
       F.val ((x.length - missingcases x cc : ℕ) : ℚ),
       F.val (sum_of_weights - missingweights x wgt cc),
       F.div (F.val (sum_of_weights - missingweights x wgt cc)) (F.val sum_of_weights)])).flatten ++
      [F.val (count_missings_listwise x : ℚ),
       F.val (weights_missings_listwise x wgt),
       F.div (F.val (weights_missings_listwise x wgt)) (F.val sum_of_weights),
       F.val ((x.length - count_missings_listwise x : ℕ) : ℚ),
       F.val (sum_of_weights - weights_missings_listwise x wgt),
       F.div (F.val (sum_of_weights - weights_missings_listwise x wgt)) (F.val sum_of_weights)] }

/-- Mirrors `missings` (src/estimates.rs, lines 67-122). -/
def missings (x : MatF) (wgt : VecF) : Except KernelError Estimates :=
  match assert_validity_of_data_and_weights x wgt "missings" with
  | some e => .error e
  | none => .ok (missings_body x wgt)

/-- Indexing the concatenation of equal-sized blocks. -/
theorem getD_flatten_blocks {α : Type} (b : ℕ) (L : List (List α))
    (h : ∀ l ∈ L, l.length = b) (j r : ℕ) (hj : j < L.length) (hr : r < b) (d : α) :
    (L.flatten).getD (b * j + r) d = (L.getD j []).getD r d := by
  induction L generalizing j with
  | nil => simp at hj
  | cons l L ih =>
    cases j with
    | zero =>
      have hl : l.length = b := h l (by simp)
      simp only [Nat.mul_zero, Nat.zero_add, List.flatten_cons]
      rw [List.getD_append _ _ _ _ (by omega), List.getD_cons_zero]
    | succ j =>
      have hl : l.length = b := h l (by simp)
      have hidx : b * (j + 1) + r = l.length + (b * j + r) := by rw [hl]; ring
      simp only [List.flatten_cons]
      rw [hidx, List.getD_append_right _ _ _ _ (by omega), Nat.add_sub_cancel_left,
        List.getD_cons_succ]
      exact ih (fun u hu => h u (by simp [hu])) j (by simpa using hj)

/-- Length of the concatenation of equal-sized blocks. -/
theorem length_flatten_blocks {α : Type} (b : ℕ) (L : List (List α))
    (h : ∀ l ∈ L, l.length = b) :
    (L.flatten).length = b * L.length := by
  induction L with
  | nil => simp
  | cons l L ih =>
    have hl : l.length = b := h l (by simp)
    simp only [List.flatten_cons, List.length_append, List.length_cons, hl,
      ih (fun u hu => h u (by simp [hu]))]
    ring

/-- C10: for a `NaN`-free weight vector with as many entries as `x` has rows,
the missings kernel succeeds and, for every column `j`, the reported
`missingcases_xj` plus `validcases_xj` equals the number of rows of `x`, and
likewise `missingcases_listwise` plus `validcases_listwise` equals the number
of rows. -/
theorem missings_cases_partition (x : MatF) (wgt : VecF)
    (hrows : x.length = wgt.length)
    (hnan : ∀ w ∈ wgt, w.isNaN = false) :
    ∃ est, missings x wgt = .ok est ∧
      (∀ j, j < ncols x →
        (est.estimates.getD (6 * j) F.nan).isNaN = false ∧
        (est.estimates.getD (6 * j + 3) F.nan).isNaN = false ∧
        (est.estimates.getD (6 * j) F.nan).toQ +
          (est.estimates.getD (6 * j + 3) F.nan).toQ = (x.length : ℚ)) ∧
      ((est.estimates.getD (6 * ncols x) F.nan).isNaN = false ∧
       (est.estimates.getD (6 * ncols x + 3) F.nan).isNaN = false ∧
       (est.estimates.getD (6 * ncols x) F.nan).toQ +
         (est.estimates.getD (6 * ncols x + 3) F.nan).toQ = (x.length : ℚ)) := by
  have hvalid : assert_validity_of_data_and_weights x wgt "missings" = none := by
    unfold assert_validity_of_data_and_weights
    rw [if_neg (by omega), if_neg (by
      intro hany
      rcases List.any_eq_true.mp hany with ⟨w, hwmem, hwnan⟩
      rw [hnan w hwmem] at hwnan
      exact Bool.false_ne_true hwnan)]
  have hcastsum : ∀ (c : ℕ), c ≤ x.length →
      ((c : ℚ) + ((x.length - c : ℕ) : ℚ) = (x.length : ℚ)) := by
    intro c hc
    rw [Nat.cast_sub hc]
    ring
  have hmcle : ∀ cc, missingcases x cc ≤ x.length := by
    intro cc
    calc missingcases x cc ≤ (List.range x.length).length := List.length_filter_le _ _
    _ = x.length := List.length_range x.length
  have hlwle : count_missings_listwise x ≤ x.length := by
    calc count_missings_listwise x ≤ (List.range x.length).length := List.length_filter_le _ _
    _ = x.length := List.length_range x.length
  refine ⟨missings_body x wgt, (by unfold missings; rw [hvalid]), ?_, ?_⟩
  · intro j hj
    have hblocks : ∀ l ∈ (List.range (ncols x)).map (fun cc =>
        [F.val (missingcases x cc : ℚ),
         F.val (missingweights x wgt cc),
         F.div (F.val (missingweights x wgt cc)) (F.val ((wgt.map F.toQ).sum)),
         F.val ((x.length - missingcases x cc : ℕ) : ℚ),
         F.val ((wgt.map F.toQ).sum - missingweights x wgt cc),
         F.div (F.val ((wgt.map F.toQ).sum - missingweights x wgt cc))
           (F.val ((wgt.map F.toQ).sum))]), l.length = 6 := by
      intro l hl
      rcases List.mem_map.mp hl with ⟨cc, _, rfl⟩
      rfl
    have hjlen : j < ((List.range (ncols x)).map (fun cc =>
        [F.val (missingcases x cc : ℚ),
         F.val (missingweights x wgt cc),
         F.div (F.val (missingweights x wgt cc)) (F.val ((wgt.map F.toQ).sum)),
         F.val ((x.length - missingcases x cc : ℕ) : ℚ),
         F.val ((wgt.map F.toQ).sum - missingweights x wgt cc),
         F.div (F.val ((wgt.map F.toQ).sum - missingweights x wgt cc))
           (F.val ((wgt.map F.toQ).sum))])).length := by simpa using hj
    have happlen := length_flatten_blocks 6 _ hblocks
    have hA0 := getD_flatten_blocks 6 _ hblocks j 0 hjlen (by omega) F.nan
    have hA3 := getD_flatten_blocks 6 _ hblocks j 3 hjlen (by omega) F.nan
    rw [Nat.add_zero] at hA0
    simp only [missings_body]
    rw [List.getD_append _ _ _ _ (by rw [happlen]; simp only [List.length_map, List.length_range]; omega),
      List.getD_append _ _ _ _ (by rw [happlen]; simp only [List.length_map, List.length_range]; omega),
      hA0, hA3, getD_map_range _ _ hj]
    refine ⟨rfl, rfl, ?_⟩
    simp only [List.getD_cons_zero, List.getD_cons_succ, F.toQ]
    exact hcastsum _ (hmcle j)
  · have hblocks : ∀ l ∈ (List.range (ncols x)).map (fun cc =>
        [F.val (missingcases x cc : ℚ),
         F.val (missingweights x wgt cc),
         F.div (F.val (missingweights x wgt cc)) (F.val ((wgt.map F.toQ).sum)),
         F.val ((x.length - missingcases x cc : ℕ) : ℚ),
         F.val ((wgt.map F.toQ).sum - missingweights x wgt cc),
         F.div (F.val ((wgt.map F.toQ).sum - missingweights x wgt cc))
           (F.val ((wgt.map F.toQ).sum))]), l.length = 6 := by
      intro l hl
      rcases List.mem_map.mp hl with ⟨cc, _, rfl⟩
      rfl
    have happlen := length_flatten_blocks 6 _ hblocks
    have hofflen : (((List.range (ncols x)).map (fun cc =>
        [F.val (missingcases x cc : ℚ),
         F.val (missingweights x wgt cc),
         F.div (F.val (missingweights x wgt cc)) (F.val ((wgt.map F.toQ).sum)),
         F.val ((x.length - missingcases x cc : ℕ) : ℚ),
         F.val ((wgt.map F.toQ).sum - missingweights x wgt cc),
         F.div (F.val ((wgt.map F.toQ).sum - missingweights x wgt cc))
           (F.val ((wgt.map F.toQ).sum))])).flatten).length = 6 * ncols x := by
      rw [happlen]
      simp
    simp only [missings_body]
    rw [List.getD_append_right _ _ _ _ (by rw [hofflen]),
      List.getD_append_right _ _ _ _ (by rw [hofflen]; omega)]
    rw [hofflen]
    simp only [Nat.sub_self, Nat.add_sub_cancel_left]
    refine ⟨rfl, rfl, ?_⟩
    simp only [List.getD_cons_zero, List.getD_cons_succ, F.toQ]
    exact hcastsum _ hlwle

/-- Witness for the missings-cases theorem at a concrete input. -/
theorem missings_cases_partition_witness :
    witness_xf.length = witness_wgtf.length ∧
    (∀ w ∈ witness_wgtf, w.isNaN = false) ∧
    (∃ est, missings witness_xf witness_wgtf = .ok est ∧
      (∀ j, j < ncols witness_xf →
        (est.estimates.getD (6 * j) F.nan).isNaN = false ∧
        (est.estimates.getD (6 * j + 3) F.nan).isNaN = false ∧
        (est.estimates.getD (6 * j) F.nan).toQ +
          (est.estimates.getD (6 * j + 3) F.nan).toQ = (witness_xf.length : ℚ)) ∧
      ((est.estimates.getD (6 * ncols witness_xf) F.nan).isNaN = false ∧
       (est.estimates.getD (6 * ncols witness_xf + 3) F.nan).isNaN = false ∧
       (est.estimates.getD (6 * ncols witness_xf) F.nan).toQ +
         (est.estimates.getD (6 * ncols witness_xf + 3) F.nan).toQ = (witness_xf.length : ℚ))) :=
  ⟨rfl, by decide, missings_cases_partition witness_xf witness_wgtf rfl (by decide)⟩

/-- Mirrors `ImmutableF64Count` (src/helper.rs, lines 176-181): a distinct
value with its case count, the weight of its first occurrence and its summed
weight. -/
structure F64Count where
  key : ℚ
  count_cases : ℕ
  first_weight : ℚ
  count_weighted : ℚ
deriving DecidableEq, Repr

/-- Mirrors `OrderedF64Counts` (src/helper.rs, lines 216-220): counts kept
sorted by key ascending, with running totals. -/
structure OrderedF64Counts where
  counts : List F64Count
  sum_of_cases : ℕ
  sum_of_weights : ℚ
deriving DecidableEq, Repr

/-- Mirrors `OrderedF64Counts::new` (src/helper.rs, lines 223-229). -/
def OrderedF64Counts.new : OrderedF64Counts := ⟨[], 0, 0⟩

/-- Insertion into the key-sorted count list, as performed by the `BTreeSet`
of `OrderedF64Counts::push`: a fresh key is inserted in order, an existing
key has its case count and summed weight updated (first weight kept). -/
def insert_count : List F64Count → ℚ → ℚ → List F64Count
  | [], k, w => [⟨k, 1, w, w⟩]
  | c :: rest, k, w =>
    if k < c.key then ⟨k, 1, w, w⟩ :: c :: rest
    else if k = c.key then
      { c with count_cases := c.count_cases + 1, count_weighted := c.count_weighted + w } :: rest
    else c :: insert_count rest k w

/-- Mirrors `OrderedF64Counts::push` (src/helper.rs, lines 231-247): `NaN`
keys are ignored, otherwise totals and the sorted count list are updated.
Weights are passed exactly (kernel validity checks exclude `NaN` weights
before any push). -/
def OrderedF64Counts.push (s : OrderedF64Counts) (key : F) (weight : ℚ) : OrderedF64Counts :=
  match key with
  | F.nan => s
  | F.val k =>
    { counts := insert_count s.counts k weight,
      sum_of_cases := s.sum_of_cases + 1,
      sum_of_weights := s.sum_of_weights + weight }

/-- Mirrors `weighted_count_values` (src/estimates.rs, lines 20-33): one
ordered counter per column, fed row by row. -/
def weighted_count_values (x : MatF) (wgt : VecF) : List OrderedF64Counts :=
  (List.range (ncols x)).map (fun cc =>
    (List.range x.length).foldl (fun s rr =>
      s.push (entry x rr cc) ((wgt.getD rr F.nan).toQ)) OrderedF64Counts.new)

/-- Body of `frequencies` after its validity check (src/estimates.rs, lines
45-64): three entries per distinct value per column, in value order. -/
def frequencies_body (x : MatF) (wgt : VecF) : Estimates :=
  let counts := weighted_count_values x wgt
  { parameter_names := (counts.enum.map (fun p =>
      (p.2.counts.map (fun count =>
        ["ncases_x" ++ toString (p.1 + 1) ++ "_" ++ toString count.key,
         "nweighted_x" ++ toString (p.1 + 1) ++ "_" ++ toString count.key,
         "perc_x" ++ toString (p.1 + 1) ++ "_" ++ toString count.key])).flatten)).flatten,
    estimates := (counts.map (fun count_column =>
      (count_column.counts.map (fun count =>
        [F.val (count.count_cases : ℚ),
         F.val count.count_weighted,
         F.div (F.val count.count_weighted) (F.val count_column.sum_of_weights)])).flatten)).flatten }

/-- Mirrors `frequencies` (src/estimates.rs, lines 42-65). -/
def frequencies (x : MatF) (wgt : VecF) : Except KernelError Estimates :=
  match assert_validity_of_data_and_weights x wgt "frequencies" with
  | some e => .error e
  | none => .ok (frequencies_body x wgt)

/-- Mirrors `QuantileType` (src/estimates.rs, lines 124-129). -/
inductive QuantileType where
  | Lower : QuantileType
  | Interpolation : QuantileType
  | Upper : QuantileType
deriving DecidableEq, Repr

/-- Exact value of `f64::EPSILON`. -/
def f64_epsilon : ℚ := 1 / 2 ^ 52

/-- Ascending sort of the configured quantile list (src/estimates.rs, lines
155-156).  Any comparison sort over a total order produces this list. -/
def sorted_quantiles (qs : List ℚ) : List ℚ := qs.insertionSort (fun a b => a ≤ b)

/-- Mirrors the inner `while` loop of `quantiles_with_options`
(src/estimates.rs, lines 170-196): at one distinct value, emit every still
pending quantile whose level the cumulative percentage now exceeds, pairing
the quantile index with the selected value; returns the emissions and the
still pending quantiles. -/
def consume_quantiles (qtype : QuantileType) (sumw old_cum cum : ℚ) (prev : Option ℚ)
    (count : F64Count) : List (ℕ × ℚ) → List (ℕ × ℚ × F) × List (ℕ × ℚ)
  | [] => ([], [])
  | (cq, q) :: rest =>
    if cum / sumw > q then
      let raised_weight := old_cum + count.first_weight
      let v : F :=
        if raised_weight / sumw ≤ q then F.val count.key
        else
          match qtype, prev with
          | QuantileType.Lower, some pk => F.val pk
          | QuantileType.Lower, none => F.val count.key
          | QuantileType.Interpolation, some pk =>
            F.val (pk + (count.key - pk) * (q - old_cum / sumw) /
              (count.first_weight / sumw + f64_epsilon))
          | QuantileType.Interpolation, none => F.val count.key
          | QuantileType.Upper, _ => F.val count.key
      let r := consume_quantiles qtype sumw old_cum cum prev count rest
      ((cq, q, v) :: r.1, r.2)
    else ([], (cq, q) :: rest)

/-- Mirrors the `for` loop over distinct values of one column
(src/estimates.rs, lines 165-201): walk the values in ascending order,
accumulating weight and consuming quantiles, stopping early when none are
pending. -/
def walk_column (qtype : QuantileType) (sumw : ℚ) :
    ℚ → Option ℚ → List F64Count → List (ℕ × ℚ) → List (ℕ × ℚ × F) × List (ℕ × ℚ)
  | _, _, [], qs => ([], qs)
  | cum, prev, count :: rest, qs =>
    let cum' := cum + count.count_weighted
    let step := consume_quantiles qtype sumw cum cum' prev count qs
    if step.2 = [] then (step.1, [])
    else
      let r := walk_column qtype sumw cum' (some count.key) rest step.2
      (step.1 ++ r.1, r.2)

/-- Sequencing of per-column results, stopping at the first failing column
(a panic in the source aborts the call). -/
def map_results {A B : Type} (step : A → Except KernelError B) : List A → Except KernelError (List B)
  | [] => .ok []
  | a :: rest =>
    match step a with
    | .error e => .error e
    | .ok b =>
      match map_results step rest with
      | .error e => .error e
      | .ok bs => .ok (b :: bs)

/-- Mirrors the per-column part of `quantiles_with_options`, including the
trailing loop (src/estimates.rs, lines 203-207) that assigns the last
distinct value to every quantile not reached, and its `unwrap` panic on a
column without values. -/
def column_quantiles (qtype : QuantileType) (indexed_quantiles : List (ℕ × ℚ))
    (column : OrderedF64Counts) : Except KernelError (List (ℕ × ℚ × F)) :=
  let walked := walk_column qtype column.sum_of_weights 0 none column.counts indexed_quantiles
  match walked.2 with
  | [] => .ok walked.1
  | rem => match column.counts.getLast? with
    | some c => .ok (walked.1 ++ rem.map (fun p => (p.1, p.2, F.val c.key)))
    | none => .error (.other "no values for quantile")

/-- Writes the per-column emissions into the estimate vector at positions
`cc * qlen + cq` (src/estimates.rs, lines 159, 177-191). -/
def apply_assignments (qlen : ℕ) (start : List F)
    (columns : List (List (ℕ × ℚ × F))) : List F :=
  (columns.enum).foldl (fun acc p =>
    p.2.foldl (fun acc2 a => acc2.set (p.1 * qlen + a.1) a.2.2) acc) start

/-- Mirrors `quantiles_with_options` (src/estimates.rs, lines 148-214).  The
configured list is sorted ascending for evaluation; parameter names are
emitted per column in that sorted order; the estimate vector is sized
`ncols · |quantiles|` and filled at `cc · |quantiles| + cq`. -/
def quantiles_with_options (x : MatF) (wgt : VecF) (quantiles : List ℚ)
    (quantile_type : QuantileType) : Except KernelError Estimates :=
  match assert_validity_of_data_and_weights x wgt "quantiles" with
  | some e => .error e
  | none =>
    if quantiles.length = 0 then .error (.other "quantiles are empty")
    else
      let counts := weighted_count_values x wgt
      let ordered_quantiles := sorted_quantiles quantiles
      match map_results (column_quantiles quantile_type ordered_quantiles.enum) counts with
      | .error e => .error e
      | .ok column_results =>
        .ok { parameter_names := (column_results.enum.map (fun p =>
                p.2.map (fun a =>
                  "quantile_x" ++ toString (p.1 + 1) ++ "_" ++ toString a.2.1))).flatten,
              estimates := apply_assignments quantiles.length
                (List.replicate (counts.length * quantiles.length) F.nan) column_results }

/-- Mirrors `quantiles` (src/estimates.rs, lines 216-218). -/
def quantiles (x : MatF) (wgt : VecF) : Except KernelError Estimates :=
  quantiles_with_options x wgt [1/4, 1/2, 3/4] QuantileType.Interpolation

/-- Model of `f64::min` (the non-`NaN` operand wins, as in Rust). -/
def F.min : F → F → F
  | F.val a, F.val b => F.val (Min.min a b)
  | F.nan, b => b
  | a, F.nan => a

/-- Transpose of a kernel-level matrix. -/
def transposeF (m : MatF) : MatF :=
  (List.range (ncols m)).map (fun i => (List.range m.length).map (fun j => entry m j i))

/-- Matrix product over kernel-level scalars. -/
def matmulF (a b : MatF) : MatF :=
  (List.range a.length).map (fun i => (List.range (ncols b)).map (fun j =>
    F.sum ((List.range (ncols a)).map (fun k => F.mul (entry a i k) (entry b k j)))))

/-- Mirrors `extract_lower_triangle` (src/helper.rs, lines 10-21): the entries
with row index at least the column index, in column-major order.  Only ever
applied to square matrices (the source asserts squareness). -/
def extract_lower_triangle (m : MatF) : List F :=
  ((List.range (ncols m)).map (fun c =>
    ((List.range m.length).filter (fun r => c ≤ r)).map (fun r => entry m r c))).flatten

/-- Mirrors `correlation_with_options` (src/estimates.rs, lines 236-298).
The square-root primitive of `f64` and the numeric library's `try_inverse`
are abstracted as parameters (external collaborators per the specification).
The mutation loop of the pairwise-delete branch is modelled by its final
state: centered entries that were `NaN` become `0` and the corresponding
per-column shadow weight becomes `0` (the loop also pushes one extra copy of
the weights per column, modelled by the appended block). -/
def correlation_with_options (sqrtF : F → F) (try_inverse : MatF → Option MatF)
    (x : MatF) (wgt : VecF) (pairwise_delete : Bool) : Except KernelError Estimates :=
  match assert_validity_of_data_and_weights x wgt "correlation" with
  | some e => .error e
  | none =>
    let means := (mean_body x wgt).estimates
    let n := x.length
    let p := ncols x
    let centered0 : MatF := (List.range n).map (fun r =>
      (List.range p).map (fun c => F.sub (entry x r c) (means.getD c F.nan)))
    let x_centered : MatF :=
      if pairwise_delete then
        (List.range n).map (fun r => (List.range p).map (fun c =>
          if (entry centered0 r c).isNaN then F.val 0 else entry centered0 r c))
      else centered0
    let weights_by_column : List VecF :=
      if pairwise_delete then
        ((List.range p).map (fun c => (List.range n).map (fun j =>
          if (entry centered0 j c).isNaN then F.val 0 else wgt.getD j F.nan))) ++
          (List.range p).map (fun _ => wgt)
      else (List.range p).map (fun _ => wgt)
    let weights_by_column_sum : List F := weights_by_column.map (fun w => F.sum w)
    let x_centered_weighted : MatF := (List.range n).map (fun r =>
      (List.range p).map (fun c => F.mul (entry x_centered r c) (wgt.getD r F.nan)))
    let covariance0 := matmulF (transposeF x_centered) x_centered_weighted
    let covariance_matrix : MatF := (List.range p).map (fun i => (List.range p).map (fun j =>
      F.div (entry covariance0 i j)
        (F.sub (F.min (weights_by_column_sum.getD i F.nan) (weights_by_column_sum.getD j F.nan))
          (F.val 1))))
    let standard_deviations := (List.range p).map (fun i => sqrtF (entry covariance_matrix i i))
    let sd_matrix : MatF := (List.range p).map (fun i => (List.range p).map (fun j =>
      if i = j then standard_deviations.getD i F.nan else F.val 0))
    match try_inverse sd_matrix with
    | none => .error (.other "standard deviation matrix not invertible")
    | some sd_inverse =>
      let correlation_matrix := matmulF (matmulF sd_inverse covariance_matrix) sd_inverse
      .ok { parameter_names :=
              ((List.range p).map (fun i => ((List.range p).filter (fun j => i ≤ j)).map (fun j =>
                "covariance_x" ++ toString (i + 1) ++ "_x" ++ toString (j + 1)))).flatten ++
              ((List.range p).map (fun i => ((List.range p).filter (fun j => i ≤ j)).map (fun j =>
                "correlation_x" ++ toString (i + 1) ++ "_x" ++ toString (j + 1)))).flatten,
            estimates := extract_lower_triangle covariance_matrix ++
              extract_lower_triangle correlation_matrix }

/-- Mirrors `correlation` (src/estimates.rs, lines 300-302). -/
def correlation (sqrtF : F → F) (try_inverse : MatF → Option MatF)
    (x : MatF) (wgt : VecF) : Except KernelError Estimates :=
  correlation_with_options sqrtF try_inverse x wgt true

/-- Mirrors `linreg_with_options` (src/estimates.rs, lines 304-388).  The
`f64` square root and the QR solver are abstracted as parameters. -/
def linreg_with_options (qr_solve : MatF → MatF → Option MatF) (sqrtF : F → F)
    (x : MatF) (wgt : VecF) (intercept : Bool) : Except KernelError Estimates :=
  match assert_validity_of_data_and_weights x wgt "linreg" with
  | some e => .error e
  | none =>
    if ¬ (1 < ncols x ∨ intercept = true) then
      .error (.other "linear regression missing a predictor")
    else
      let n := x.length
      let p := ncols x
      let dep : VecF := (List.range n).map (fun r => entry x r 0)
      let pre : MatF :=
        if 1 < p ∧ intercept = true then
          (List.range n).map (fun r => (List.range p).map (fun c =>
            if c = 0 then F.val 1 else entry x r c))
        else if 1 < p ∧ ¬ intercept = true then
          (List.range n).map (fun r => (List.range (p - 1)).map (fun c => entry x r (c + 1)))
        else
          (List.range n).map (fun _ => [F.val 1])
      let dep_weighted : MatF := (List.range n).map (fun r =>
        [F.mul (dep.getD r F.nan) (wgt.getD r F.nan)])
      let pre_weighted : MatF := (List.range n).map (fun r =>
        (List.range (ncols pre)).map (fun c => F.mul (entry pre r c) (wgt.getD r F.nan)))
      let pre_transposed_weighted := matmulF (transposeF pre) pre_weighted
      let pre_transposed_dep := matmulF (transposeF pre) dep_weighted
      match qr_solve pre_transposed_weighted pre_transposed_dep with
      | none => .error (.other "failed to solve linear regression")
      | some coeffs =>
        if ncols coeffs ≠ 1 then .error (.other "unrecognized coefficient vector")
        else
          let k : ℕ := p - 1 + (if intercept then 1 else 0)
          let sum_of_weights := F.sum wgt
          let errors : VecF := (List.range n).map (fun r =>
            F.sub (dep.getD r F.nan) (entry (matmulF pre coeffs) r 0))
          let sum_of_squared_errors := F.sum ((List.range n).map (fun r =>
            F.mul (F.mul (errors.getD r F.nan) (errors.getD r F.nan)) (wgt.getD r F.nan)))
          let sigma := sqrtF (F.div sum_of_squared_errors (F.sub sum_of_weights (F.val k)))
          let dep_mean := F.div
            (F.sum ((List.range n).map (fun r => F.mul (dep.getD r F.nan) (wgt.getD r F.nan))))
            sum_of_weights
          let sum_of_squared_total := F.sum ((List.range n).map (fun r =>
            F.mul (F.mul (F.sub (dep.getD r F.nan) dep_mean) (F.sub (dep.getD r F.nan) dep_mean))
              (wgt.getD r F.nan)))
          let r2 := F.sub (F.val 1) (F.div sum_of_squared_errors sum_of_squared_total)
          let means := (mean_body x wgt).estimates
          let x_full_centered : MatF := (List.range n).map (fun r =>
            (List.range p).map (fun c => F.sub (entry x r c) (means.getD c F.nan)))
          let x_full_centered_weighted : MatF := (List.range n).map (fun r =>
            (List.range p).map (fun c => F.mul (entry x_full_centered r c) (wgt.getD r F.nan)))
          let covariance_matrix := matmulF (transposeF x_full_centered) x_full_centered_weighted
          let std_devs := (List.range p).map (fun i => sqrtF (entry covariance_matrix i i))
          let std_coeffs : VecF :=
            if ¬ intercept = true then
              (List.range (p - 1)).map (fun i =>
                F.div (F.mul (entry coeffs i 0) (std_devs.getD (i + 1) F.nan))
                  (std_devs.getD 0 F.nan))
            else if intercept = true ∧ 1 < p then
              (List.range (p - 1)).map (fun i =>
                F.div (F.mul (entry coeffs (i + 1) 0) (std_devs.getD (i + 1) F.nan))
                  (std_devs.getD 0 F.nan))
            else []
          .ok { parameter_names :=
                  (if intercept then ["linreg_b_intercept"] else []) ++
                  (List.range (p - 1)).map (fun xx => "linreg_b_X" ++ toString (xx + 1)) ++
                  ["linreg_sigma", "linreg_R2"] ++
                  (List.range (p - 1)).map (fun xx => "linreg_beta_X" ++ toString (xx + 1)),
                estimates :=
                  (List.range coeffs.length).map (fun r => entry coeffs r 0) ++
                  [sigma, r2] ++ std_coeffs }

/-- Mirrors `linreg` (src/estimates.rs, lines 390-392). -/
def linreg (qr_solve : MatF → MatF → Option MatF) (sqrtF : F → F)
    (x : MatF) (wgt : VecF) : Except KernelError Estimates :=
  linreg_with_options qr_solve sqrtF x wgt true

/-- The two failure kinds raised by the shared validity check. -/
def KernelError.is_validity_failure : KernelError → Bool
  | .dimensionMismatch _ => true
  | .nanInWeights _ => true
  | .other _ => false

/-- Validity check outcome on a row-count mismatch. -/
theorem validity_dimension_mismatch (x : MatF) (wgt : VecF) (name : String)
    (h : x.length ≠ wgt.length) :
    assert_validity_of_data_and_weights x wgt name = some (.dimensionMismatch name) := by
  unfold assert_validity_of_data_and_weights
  rw [if_pos h]

/-- Validity check outcome on a `NaN` weight. -/
theorem validity_nan_in_weights (x : MatF) (wgt : VecF) (name : String)
    (h1 : x.length = wgt.length) (h2 : ∃ w ∈ wgt, w.isNaN = true) :
    assert_validity_of_data_and_weights x wgt name = some (.nanInWeights name) := by
  unfold assert_validity_of_data_and_weights
  rw [if_neg (by omega), if_pos (List.any_eq_true.mpr h2)]

/-- Validity check outcome on valid input. -/
theorem validity_passes (x : MatF) (wgt : VecF) (name : String)
    (h1 : x.length = wgt.length) (h2 : ∀ w ∈ wgt, w.isNaN = false) :
    assert_validity_of_data_and_weights x wgt name = none := by
  unfold assert_validity_of_data_and_weights
  rw [if_neg (by omega), if_neg (by
    intro hany
    rcases List.any_eq_true.mp hany with ⟨w, hwmem, hwnan⟩
    rw [h2 w hwmem] at hwnan
    exact Bool.false_ne_true hwnan)]

/-- Any failure of `column_quantiles` is a later (non-validity) panic. -/
theorem column_quantiles_error (t : QuantileType) (iq : List (ℕ × ℚ))
    (col : OrderedF64Counts) (e : KernelError)
    (h : column_quantiles t iq col = .error e) : e.is_validity_failure = false := by
  simp only [column_quantiles] at h
  rcases hw : (walk_column t col.sum_of_weights 0 none col.counts iq).2 with _ | ⟨a, rest⟩
  · rw [hw] at h
    cases h
  · rw [hw] at h
    rcases hl : col.counts.getLast? with _ | c
    · rw [hl] at h
      cases h
      rfl
    · rw [hl] at h
      cases h

/-- Any failure of the column sequencing satisfies the per-column failure
predicate. -/
theorem map_results_error {A B : Type} (step : A → Except KernelError B)
    (P : KernelError → Prop) (h : ∀ a e, step a = .error e → P e) :
    ∀ (l : List A) (e : KernelError), map_results step l = .error e → P e := by
  intro l
  induction l with
  | nil =>
    intro e he
    cases he
  | cons a rest ih =>
    intro e he
    unfold map_results at he
    revert he
    split
    · rename_i heq
      intro he
      cases he
      exact h a e heq
    · split
      · rename_i heq
        intro he
        cases he
        exact ih e heq
      · intro he
        cases he

section claim6

/-- C6: every estimator kernel fails with the dimension-mismatch error when
the row count of `x` differs from the length of `w`, fails with the
`NaN`-in-weights error when the lengths agree but `w` contains a `NaN`, and
under the precondition (equal lengths, `NaN`-free weights) never raises
either of those two failures, whatever the abstracted numeric primitives do. -/
theorem kernels_validity_gate :
    (∀ (x : MatF) (wgt : VecF),
      (x.length ≠ wgt.length → mean x wgt = .error (.dimensionMismatch "mean")) ∧
      (x.length = wgt.length → (∃ w ∈ wgt, w.isNaN = true) →
        mean x wgt = .error (.nanInWeights "mean")) ∧
      (x.length = wgt.length → (∀ w ∈ wgt, w.isNaN = false) →
        ∀ e, mean x wgt = .error e → e.is_validity_failure = false)) ∧
    (∀ (sqrtF : F → F) (try_inverse : MatF → Option MatF) (x : MatF) (wgt : VecF),
      (x.length ≠ wgt.length →
        correlation sqrtF try_inverse x wgt = .error (.dimensionMismatch "correlation")) ∧
      (x.length = wgt.length → (∃ w ∈ wgt, w.isNaN = true) →
        correlation sqrtF try_inverse x wgt = .error (.nanInWeights "correlation")) ∧
      (x.length = wgt.length → (∀ w ∈ wgt, w.isNaN = false) →
        ∀ e, correlation sqrtF try_inverse x wgt = .error e →
          e.is_validity_failure = false)) ∧
    (∀ (qr_solve : MatF → MatF → Option MatF) (sqrtF : F → F) (x : MatF) (wgt : VecF),
      (x.length ≠ wgt.length →
        linreg qr_solve sqrtF x wgt = .error (.dimensionMismatch "linreg")) ∧
      (x.length = wgt.length → (∃ w ∈ wgt, w.isNaN = true) →
        linreg qr_solve sqrtF x wgt = .error (.nanInWeights "linreg")) ∧
      (x.length = wgt.length → (∀ w ∈ wgt, w.isNaN = false) →
        ∀ e, linreg qr_solve sqrtF x wgt = .error e → e.is_validity_failure = false)) ∧
    (∀ (x : MatF) (wgt : VecF),
      (x.length ≠ wgt.length → quantiles x wgt = .error (.dimensionMismatch "quantiles")) ∧
      (x.length = wgt.length → (∃ w ∈ wgt, w.isNaN = true) →
        quantiles x wgt = .error (.nanInWeights "quantiles")) ∧
      (x.length = wgt.length → (∀ w ∈ wgt, w.isNaN = false) →
        ∀ e, quantiles x wgt = .error e → e.is_validity_failure = false)) ∧
    (∀ (x : MatF) (wgt : VecF),
      (x.length ≠ wgt.length →
        frequencies x wgt = .error (.dimensionMismatch "frequencies")) ∧
      (x.length = wgt.length → (∃ w ∈ wgt, w.isNaN = true) →
        frequencies x wgt = .error (.nanInWeights "frequencies")) ∧
      (x.length = wgt.length → (∀ w ∈ wgt, w.isNaN = false) →
        ∀ e, frequencies x wgt = .error e → e.is_validity_failure = false)) ∧
    (∀ (x : MatF) (wgt : VecF),
      (x.length ≠ wgt.length → missings x wgt = .error (.dimensionMismatch "missings")) ∧
      (x.length = wgt.length → (∃ w ∈ wgt, w.isNaN = true) →
        missings x wgt = .error (.nanInWeights "missings")) ∧
      (x.length = wgt.length → (∀ w ∈ wgt, w.isNaN = false) →
        ∀ e, missings x wgt = .error e → e.is_validity_failure = false)) := by
  refine ⟨fun x wgt => ⟨?_, ?_, ?_⟩, fun sq ti x wgt => ⟨?_, ?_, ?_⟩,
    fun qr sq x wgt => ⟨?_, ?_, ?_⟩, fun x wgt => ⟨?_, ?_, ?_⟩,
    fun x wgt => ⟨?_, ?_, ?_⟩, fun x wgt => ⟨?_, ?_, ?_⟩⟩
  · intro h
    unfold mean
    rw [validity_dimension_mismatch x wgt _ h]
  · intro h1 h2
    unfold mean
    rw [validity_nan_in_weights x wgt _ h1 h2]
  · intro h1 h2 e he
    unfold mean at he
    rw [validity_passes x wgt _ h1 h2] at he
    cases he
  · intro h
    unfold correlation correlation_with_options
    rw [validity_dimension_mismatch x wgt _ h]
  · intro h1 h2
    unfold correlation correlation_with_options
    rw [validity_nan_in_weights x wgt _ h1 h2]
  · intro h1 h2 e he
    unfold correlation correlation_with_options at he
    rw [validity_passes x wgt _ h1 h2] at he
    revert he
    simp only
    split
    · intro he
      cases he
      rfl
    · intro he
      cases he
  · intro h
    unfold linreg linreg_with_options
    rw [validity_dimension_mismatch x wgt _ h]
  · intro h1 h2
    unfold linreg linreg_with_options
    rw [validity_nan_in_weights x wgt _ h1 h2]
  · intro h1 h2 e he
    unfold linreg linreg_with_options at he
    rw [validity_passes x wgt _ h1 h2] at he
    revert he
    simp only
    split
    · intro he
      cases he
      rfl
    · split
      · intro he
        cases he
        rfl
      · split
        · intro he
          cases he
          rfl
        · intro he
          cases he
  · intro h
    unfold quantiles quantiles_with_options
    rw [validity_dimension_mismatch x wgt _ h]
  · intro h1 h2
    unfold quantiles quantiles_with_options
    rw [validity_nan_in_weights x wgt _ h1 h2]
  · intro h1 h2 e he
    unfold quantiles quantiles_with_options at he
    rw [validity_passes x wgt _ h1 h2] at he
    revert he
    simp only
    split
    · intro he
      cases he
      rfl
    · split
      · rename_i heq
        intro he
        cases he
        exact map_results_error _ (fun e0 => e0.is_validity_failure = false)
          (fun a e0 => column_quantiles_error _ _ a e0) _ _ heq
      · intro he
        cases he
  · intro h
    unfold frequencies
    rw [validity_dimension_mismatch x wgt _ h]
  · intro h1 h2
    unfold frequencies
    rw [validity_nan_in_weights x wgt _ h1 h2]
  · intro h1 h2 e he
    unfold frequencies at he
    rw [validity_passes x wgt _ h1 h2] at he
    cases he
  · intro h
    unfold missings
    rw [validity_dimension_mismatch x wgt _ h]
  · intro h1 h2
    unfold missings
    rw [validity_nan_in_weights x wgt _ h1 h2]
  · intro h1 h2 e he
    unfold missings at he
    rw [validity_passes x wgt _ h1 h2] at he
    cases he

end claim6

/-- Witness for the validity-gate theorem: a concrete dimension mismatch and
a concrete `NaN` weight both produce the documented fatal errors. -/
theorem kernels_validity_gate_witness :
    ([[F.val 1]] : MatF).length ≠ ([] : VecF).length ∧
    ([[F.val 1]] : MatF).length = ([F.nan] : VecF).length ∧
    (∃ w ∈ ([F.nan] : VecF), w.isNaN = true) ∧
    mean [[F.val 1]] [] = .error (.dimensionMismatch "mean") ∧
    missings [[F.val 1]] [F.nan] = .error (.nanInWeights "missings") :=
  ⟨by decide, by decide, by decide,
    (kernels_validity_gate.1 [[F.val 1]] []).1 (by decide),
    ((kernels_validity_gate.2.2.2.2.2 [[F.val 1]] [F.nan]).2.1 (by decide) (by decide))⟩

section ratreducible

set_option allowUnsafeReducibility true

attribute [local semireducible] Rat.add Rat.inv Rat.sub Rat.mul

/-- C5: `quantiles_with_options` evaluates the configured quantile list in
ascending sorted order — its result depends on the configured list only
through that sorted list — and reports parameter names in that sorted order:
in Lower mode with configured list `[0.75, 0.25]` on a single column holding
`1..10` with unit weights, the names come out `q = 0.25` then `q = 0.75` and
the estimates are `[2.0, 7.0]`. -/
theorem quantiles_sorted_evaluation :
    (∀ (x : MatF) (wgt : VecF) (qs : List ℚ) (t : QuantileType),
      quantiles_with_options x wgt qs t =
        quantiles_with_options x wgt (sorted_quantiles qs) t) ∧
    quantiles_with_options
        [[F.val 1], [F.val 2], [F.val 3], [F.val 4], [F.val 5],
         [F.val 6], [F.val 7], [F.val 8], [F.val 9], [F.val 10]]
        (List.replicate 10 (F.val 1)) [3/4, 1/4] QuantileType.Lower =
      .ok { parameter_names := ["quantile_x1_1/4", "quantile_x1_3/4"],
            estimates := [F.val 2, F.val 7] } := by
  constructor
  · intro x wgt qs t
    unfold quantiles_with_options
    have hidem : sorted_quantiles (sorted_quantiles qs) = sorted_quantiles qs :=
      List.Sorted.insertionSort_eq (List.sorted_insertionSort _ qs)
    have hlen : (sorted_quantiles qs).length = qs.length :=
      List.length_insertionSort _ _
    rw [hidem, hlen]
  · decide

end ratreducible

end estimates

namespace data_preparation

/-- Mirrors `listwise_delete` (src/data_preparation.rs, lines 3-22): rows of
`x` containing a `NaN` are zeroed, together with their weight entry and (when
replicate weights are present) their replicate-weight row.  The two
assertions on row counts are modelled by the `Option` result; the loop's
final state is expressed row by row. -/
def listwise_delete (x : MatF) (weight : VecF) (repweights : MatF) :
    Option (MatF × VecF × MatF) :=
  if x.length ≠ weight.length then none
  else if 0 < repweights.length ∧ x.length ≠ repweights.length then none
  else some
    (x.map (fun row => if row.any (fun v => v.isNaN) then row.map (fun _ => F.val 0) else row),
     List.zipWith (fun (row : List F) w =>
       if row.any (fun v => v.isNaN) then F.val 0 else w) x weight,
     List.zipWith (fun (row : List F) (rrow : List F) =>
       if row.any (fun v => v.isNaN) then rrow.map (fun _ => F.val 0) else rrow) x repweights)

/-- C8: given equal row counts, `listwise_delete` zeroes every row of `x`
containing a `NaN` together with its weight entry and (for non-empty
replicate weights) its replicate-weight row, leaves every other row of all
three structures unchanged, and never changes any row count. -/
theorem listwise_delete_neutralizes_nan_rows (x : MatF) (weight : VecF) (repweights : MatF)
    (hw : weight.length = x.length)
    (hr : repweights = [] ∨ repweights.length = x.length) :
    ∃ x2 w2 r2, listwise_delete x weight repweights = some (x2, w2, r2) ∧
      x2.length = x.length ∧ w2.length = weight.length ∧ r2.length = repweights.length ∧
      (∀ i, i < x.length →
        ((x.getD i []).any (fun v => v.isNaN) = true →
          x2.getD i [] = (x.getD i []).map (fun _ => F.val 0) ∧
          w2.getD i F.nan = F.val 0 ∧
          (repweights ≠ [] → r2.getD i [] = (repweights.getD i []).map (fun _ => F.val 0))) ∧
        ((x.getD i []).any (fun v => v.isNaN) = false →
          x2.getD i [] = x.getD i [] ∧
          w2.getD i F.nan = weight.getD i F.nan ∧
          r2.getD i [] = repweights.getD i [])) := by
  have hrlen : repweights.length = 0 ∨ repweights.length = x.length := by
    rcases hr with h | h
    · left
      rw [h]
      rfl
    · right
      exact h
  refine ⟨_, _, _, (by
    unfold listwise_delete
    rw [if_neg (by omega), if_neg (by
      intro hcon
      rcases hrlen with h | h
      · omega
      · omega)]), by simp, ?_, ?_, ?_⟩
  · rw [List.length_zipWith]
    omega
  · rw [List.length_zipWith]
    rcases hrlen with h | h
    · omega
    · omega
  · intro i hi
    have hxi : i < x.length := hi
    have hwi : i < weight.length := by omega
    have hx2 : (x.map (fun row =>
        if row.any (fun v => v.isNaN) then row.map (fun _ => F.val 0) else row)).getD i [] =
        (if (x.getD i []).any (fun v => v.isNaN) then (x.getD i []).map (fun _ => F.val 0)
         else x.getD i []) := by
      rw [List.getD_eq_getElem _ _ (by simpa using hxi), List.getElem_map,
        List.getD_eq_getElem _ _ hxi]
    have hw2 : (List.zipWith (fun (row : List F) w =>
        if row.any (fun v => v.isNaN) then F.val 0 else w) x weight).getD i F.nan =
        (if (x.getD i []).any (fun v => v.isNaN) then F.val 0 else weight.getD i F.nan) :=
      getD_zipWith_lt _ _ _ _ [] F.nan F.nan hxi hwi
    constructor
    · intro hnan
      refine ⟨by rw [hx2, if_pos hnan], by rw [hw2, if_pos hnan], ?_⟩
      intro hne
      have hri : i < repweights.length := by
        rcases hr with h | h
        · exact absurd h hne
        · omega
      have hr2 : (List.zipWith (fun (row : List F) (rrow : List F) =>
          if row.any (fun v => v.isNaN) then rrow.map (fun _ => F.val 0) else rrow)
          x repweights).getD i [] =
          (if (x.getD i []).any (fun v => v.isNaN) then (repweights.getD i []).map (fun _ => F.val 0)
           else repweights.getD i []) :=
        getD_zipWith_lt _ _ _ _ [] [] [] hxi hri
      rw [hr2, if_pos hnan]
    · intro hok
      refine ⟨by rw [hx2, if_neg (by rw [hok]; exact Bool.false_ne_true)],
        by rw [hw2, if_neg (by rw [hok]; exact Bool.false_ne_true)], ?_⟩
      rcases hrlen with h | h
      · have : repweights = [] := List.length_eq_zero.mp h
        subst this
        simp
      · have hri : i < repweights.length := by omega
        have hr2 : (List.zipWith (fun (row : List F) (rrow : List F) =>
            if row.any (fun v => v.isNaN) then rrow.map (fun _ => F.val 0) else rrow)
            x repweights).getD i [] =
            (if (x.getD i []).any (fun v => v.isNaN)
             then (repweights.getD i []).map (fun _ => F.val 0)
             else repweights.getD i []) :=
          getD_zipWith_lt _ _ _ _ [] [] [] hxi hri
        rw [hr2, if_neg (by rw [hok]; exact Bool.false_ne_true)]

/-- Witness for the listwise-delete theorem at a concrete input with one
`NaN` row. -/
theorem listwise_delete_neutralizes_nan_rows_witness :
    ([F.val 1, F.val 2] : VecF).length = ([[F.val 1, F.nan], [F.val 3, F.val 4]] : MatF).length ∧
    (([[F.val 5], [F.val 6]] : MatF) = [] ∨
      ([[F.val 5], [F.val 6]] : MatF).length =
        ([[F.val 1, F.nan], [F.val 3, F.val 4]] : MatF).length) ∧
    (∃ x2 w2 r2, listwise_delete [[F.val 1, F.nan], [F.val 3, F.val 4]] [F.val 1, F.val 2]
        [[F.val 5], [F.val 6]] = some (x2, w2, r2) ∧
      x2.length = ([[F.val 1, F.nan], [F.val 3, F.val 4]] : MatF).length ∧
      w2.length = ([F.val 1, F.val 2] : VecF).length ∧
      r2.length = ([[F.val 5], [F.val 6]] : MatF).length ∧
      (∀ i, i < ([[F.val 1, F.nan], [F.val 3, F.val 4]] : MatF).length →
        ((([[F.val 1, F.nan], [F.val 3, F.val 4]] : MatF).getD i []).any
            (fun v => v.isNaN) = true →
          x2.getD i [] = (([[F.val 1, F.nan], [F.val 3, F.val 4]] : MatF).getD i []).map
            (fun _ => F.val 0) ∧
          w2.getD i F.nan = F.val 0 ∧
          (([[F.val 5], [F.val 6]] : MatF) ≠ [] →
            r2.getD i [] = (([[F.val 5], [F.val 6]] : MatF).getD i []).map
              (fun _ => F.val 0))) ∧
        ((([[F.val 1, F.nan], [F.val 3, F.val 4]] : MatF).getD i []).any
            (fun v => v.isNaN) = false →
          x2.getD i [] = ([[F.val 1, F.nan], [F.val 3, F.val 4]] : MatF).getD i [] ∧
          w2.getD i F.nan = ([F.val 1, F.val 2] : VecF).getD i F.nan ∧
          r2.getD i [] = ([[F.val 5], [F.val 6]] : MatF).getD i []))) :=
  ⟨rfl, Or.inr rfl,
    listwise_delete_neutralizes_nan_rows [[F.val 1, F.nan], [F.val 3, F.val 4]]
      [F.val 1, F.val 2] [[F.val 5], [F.val 6]] rfl (Or.inr rfl)⟩

end data_preparation

namespace analysis

open replication

/-- Grouping keys are `Vec<String>` in the source: each row of a grouping
matrix is rendered value by value with `f64::to_string`, an injective
rendering of the embedded values.  `toString : ℚ → String` plays that role
here; only equality of keys is ever used, so any injective rendering gives
the same behaviour. -/
abbrev Key := List String

/-- The rendered key of one row of a grouping matrix (src/helper.rs, lines
33-34 and 46-47). -/
def keyOfRow (row : List ℚ) : Key := row.map (fun v => toString v)

/-- Mirrors `get_keys` (src/helper.rs, lines 30-39).  The `HashSet` is
modelled as the duplicate-free list of row keys in first-appearance order;
only membership in it is ever used. -/
def get_keys (g : Mat) : List Key :=
  g.foldl (fun ks row => if keyOfRow row ∈ ks then ks else ks ++ [keyOfRow row]) []

/-- Row indices of the grouping matrix `other` carrying key `k`, in
increasing order: the `index_map` entry for `k` built by `split_by`
(src/helper.rs, lines 44-57). -/
def row_indices (other : Mat) (k : Key) : List ℕ :=
  (List.range other.length).filter (fun r => keyOfRow (other.getD r []) = k)

/-- The association list `split_by` returns on success: one entry per key of
the grouping matrix, holding the rows (respectively entries) of `self` whose
grouping row carries that key (src/helper.rs, lines 59-71 and 105-117; `α`
is a data row for the matrix instance and a scalar for the vector
instance). -/
def split_map {α : Type} (self : List α) (dflt : α) (other : Mat) : List (Key × List α) :=
  (get_keys other).map (fun k => (k, (row_indices other k).map (fun r => self.getD r dflt)))

/-- Mirrors `split_by` (src/helper.rs, lines 41-72 and 87-118): `none`
models the `assert_eq!` on row counts at its head. -/
def split_by {α : Type} (self : List α) (dflt : α) (other : Mat) :
    Option (List (Key × List α)) :=
  if self.length = other.length then some (split_map self dflt other) else none

/-- `HashMap` lookup over the association-list model. -/
def alookup {V : Type} (m : List (Key × V)) (k : Key) : Option V :=
  (m.find? (fun p => p.1 = k)).map Prod.snd

/-- `split.get_mut(&key).unwrap().push(v)` (src/analysis.rs, lines 232 and
252-257): `none` models the `unwrap` panic on an absent key. -/
def push_at {V : Type} (m : List (Key × List V)) (k : Key) (v : V) :
    Option (List (Key × List V)) :=
  if (alookup m k).isSome then
    some (m.map (fun p => if p.1 = k then (p.1, p.2 ++ [v]) else p))
  else none

/-- First round of the split-merging loops: `insert(key, vec![v])` for every
entry of the first split (src/analysis.rs, lines 225-229 and 243-250). -/
def init_split {V : Type} (sp : List (Key × V)) : List (Key × List V) :=
  sp.map (fun p => (p.1, [p.2]))

/-- A later round of the split-merging loops: push every entry of the split
onto the existing entry of its key (src/analysis.rs, lines 230-235 and
251-259). -/
def extend_split {V : Type} (acc : Option (List (Key × List V))) :
    List (Key × V) → Option (List (Key × List V))
  | [] => acc
  | p :: sp => extend_split (acc.bind (fun m => push_at m p.1 p.2)) sp

/-- The whole merging loop over the per-round splits (first round inserts,
later rounds push). -/
def build_split {V : Type} : List (List (Key × V)) → Option (List (Key × List V))
  | [] => some []
  | sp :: rest => rest.foldl extend_split (some (init_split sp))

/-- `Option`-valued map over a list, `none` as soon as one element fails. -/
def map_option {α β : Type} (f : α → Option β) : List α → Option (List β)
  | [] => some []
  | a :: l =>
    match f a, map_option f l with
    | some b, some bs => some (b :: bs)
    | _, _ => none

/-- The failures `calculate` can surface: the two error types of
src/errors.rs, plus `fatal` for a panic (`assert!` or `unwrap` failure)
reached during the call. -/
inductive AnalysisError where
  | missingElement (what : String)
  | inconsistency (what : String)
  | fatal (what : String)
deriving DecidableEq

/-- Mirrors `Analysis` (src/analysis.rs, lines 17-26).  The `options` string
map only feeds the builder methods' construction of the `estimate` closure
and is omitted; `estimate` is that closure itself, over the engine's
types. -/
structure Analysis where
  x : Option (List Mat)
  wgt : Option Vec
  repwgts : Option Mat
  variance_adjustment_factor : ℚ
  estimate_name : Option String
  estimate : Option (Mat → Vec → Estimates)
  groups : Option (List Mat)

/-- Mirrors `prepare_missing_weights` (src/analysis.rs, lines 151-167),
returning the updated analysis instead of mutating in place: missing
weights default to unit weights, missing replicate weights to an
`ncases x 0` matrix. -/
def prepare_missing_weights (a : Analysis) : Except AnalysisError Analysis :=
  match a.x with
  | none => .error (.missingElement "data")
  | some xs =>
    if xs.length = 0 then .error (.missingElement "data")
    else
      .ok { a with
            wgt := some (a.wgt.getD (List.replicate (xs.getD 0 []).length 1))
            repwgts := some (a.repwgts.getD (List.replicate (xs.getD 0 []).length [])) }

/-- Mirrors `prepare_for_calculate_overall` (src/analysis.rs, lines
169-198): a single key `["overall"]` mapping to all imputations, the shared
weight vector and the shared replicate weights. -/
def prepare_for_calculate_overall (xs : List Mat) (wgt : Vec) (repwgts : Mat) :
    Except AnalysisError
      (List Key × List (Key × List Mat) × List (Key × List Vec) × List (Key × List Mat)) :=
  if (xs.getD 0 []).length ≠ wgt.length then
    .error (.inconsistency "unequal number of rows for data and weights")
  else if (xs.getD 0 []).length ≠ repwgts.length then
    .error (.inconsistency "unequal number of rows for data and replicate weights")
  else
    .ok ([["overall"]], [(["overall"], xs)], [(["overall"], [wgt])], [(["overall"], [repwgts])])

/-- Grouping matrix used for imputation `i` in the data-splitting loop
(src/analysis.rs, line 222): the per-imputation one when several grouping
matrices are supplied, otherwise the single shared one. -/
def geff (groups : List Mat) (i : ℕ) : Mat :=
  if 1 < groups.length then groups.getD i [] else groups.getD 0 []

/-- Mirrors `prepare_for_calculate_group_by` (src/analysis.rs, lines
200-263).  The key set is taken from the FIRST grouping matrix only (line
216); the split-merging loops are `map_option` over the per-round splits
followed by `build_split`; a panic inside `split_by` or at
`get_mut(&key).unwrap()` surfaces as a `fatal` error. -/
def prepare_for_calculate_group_by (xs : List Mat) (wgt : Vec) (repwgts : Mat)
    (groups : List Mat) :
    Except AnalysisError
      (List Key × List (Key × List Mat) × List (Key × List Vec) × List (Key × List Mat)) :=
  if 1 < groups.length ∧ groups.length ≠ xs.length then
    .error (.inconsistency "number of data sets does not match number of sets with grouping columns")
  else
    match map_option (fun i => split_by (xs.getD i []) [] (geff groups i))
        (List.range xs.length) with
    | none => .error (.fatal "unequal number of rows in split_by")
    | some x_splits =>
      match build_split x_splits with
      | none => .error (.fatal "no entry found for key in x_split")
      | some x_split =>
        match map_option (fun g => split_by wgt 0 g) groups with
        | none => .error (.fatal "unequal number of rows in split_by for weights")
        | some wgt_splits =>
          match build_split wgt_splits with
          | none => .error (.fatal "no entry found for key in wgt_split")
          | some wgt_split =>
            match map_option (fun g => split_by repwgts [] g) groups with
            | none => .error (.fatal "unequal number of rows in split_by for replicate weights")
            | some repwgt_splits =>
              match build_split repwgt_splits with
              | none => .error (.fatal "no entry found for key in repwgt_split")
              | some repwgt_split =>
                .ok (get_keys (groups.getD 0 []), x_split, wgt_split, repwgt_split)

/-- Mirrors `calculate` (src/analysis.rs, lines 265-324): estimator check,
weight defaulting, grouped or overall preparation, then one engine run per
key.  The result map is an association list over the key set; an engine
assertion failure (`replicate_estimates` returning `none`) surfaces as a
`fatal` error. -/
noncomputable def calculate (a0 : Analysis) :
    Except AnalysisError (List (Key × ReplicatedEstimates)) :=
  match a0.estimate with
  | none => .error (.missingElement "estimate")
  | some estimator =>
    match prepare_missing_weights a0 with
    | .error e => .error e
    | .ok a =>
      let xs := a.x.getD []
      let wgt := a.wgt.getD []
      let repwgts := a.repwgts.getD []
      let prepared :=
        match a.groups with
        | some gs =>
          if 0 < gs.length then prepare_for_calculate_group_by xs wgt repwgts gs
          else prepare_for_calculate_overall xs wgt repwgts
        | none => prepare_for_calculate_overall xs wgt repwgts
      match prepared with
      | .error e => .error e
      | .ok (keys, x_split, wgt_split, repwgt_split) =>
        match map_option (fun k =>
            (alookup x_split k).bind (fun xk =>
              (alookup wgt_split k).bind (fun wk =>
                (alookup repwgt_split k).bind (fun rk =>
                  (replicate_estimates estimator xk wk rk a.variance_adjustment_factor).map
                    (fun re => (k, re)))))) keys with
        | none => .error (.fatal "replication engine assertion failed")
        | some results => .ok results

/-- C7: `Analysis::calculate` fails with `MissingElement("estimate")`
whenever no estimator is selected — regardless of the data fields, which
shows the estimator check is performed first — and, once an estimator is
selected, fails with `MissingElement("data")` when the data is absent or
the imputation list is empty. -/
theorem calculate_missing_element_checks (a : Analysis) :
    (a.estimate = none → calculate a = .error (.missingElement "estimate")) ∧
    (a.estimate ≠ none → a.x = none ∨ a.x = some [] →
      calculate a = .error (.missingElement "data")) := by
  constructor
  · intro h
    simp [calculate, h]
  · intro h hx
    obtain ⟨f, hf⟩ := Option.ne_none_iff_exists'.mp h
    have hp : prepare_missing_weights a = .error (.missingElement "data") := by
      rcases hx with hx | hx <;> simp [prepare_missing_weights, hx]
    simp [calculate, hf, hp]

/-- A concrete analysis with an estimator selected but no data supplied. -/
def witness_dataless : Analysis :=
  { x := none
    wgt := none
    repwgts := none
    variance_adjustment_factor := 1
    estimate_name := some "mean"
    estimate := some (fun _ _ => ⟨[], []⟩)
    groups := none }

/-- Witness for the calculate error-ordering theorem: the same analysis with
the estimator removed fails on the estimator check, and with the estimator
present fails on the data check. -/
theorem calculate_missing_element_checks_witness :
    calculate { witness_dataless with estimate := none }
      = .error (.missingElement "estimate") ∧
    calculate witness_dataless = .error (.missingElement "data") :=
  ⟨(calculate_missing_element_checks _).1 rfl,
   (calculate_missing_element_checks witness_dataless).2
     (fun hcon => Option.noConfusion hcon) (Or.inl rfl)⟩

/-- Grouped analysis with two imputations whose grouping matrices carry
different keys: the first imputation's grouping matrix has key set {"1"},
the second's {"2"}. -/
def cex_analysis : Analysis :=
  { x := some [[[10]], [[20]]]
    wgt := none
    repwgts := none
    variance_adjustment_factor := 1
    estimate_name := some "mean"
    estimate := some (fun _ _ => ⟨[], []⟩)
    groups := some [[[1]], [[2]]] }

/-- C2 counterexample: the key "2" lies in the union of the group keys
across the two imputations (it is the key of the second grouping matrix),
yet `calculate` returns no mapping at all — it dies at the
`x_split.get_mut(&key).unwrap()` panic of `prepare_for_calculate_group_by`
because "2" does not appear in the FIRST grouping matrix — so the key set
of the result is not the union of group keys across imputations and a key
missing from the first imputation contributes nothing. -/
theorem calculate_group_by_union_counterexample :
    (cex_analysis.groups.getD []).map get_keys = [[keyOfRow [1]], [keyOfRow [2]]] ∧
    keyOfRow [2] ∉ get_keys [[(1 : ℚ)]] ∧
    calculate cex_analysis = .error (.fatal "no entry found for key in x_split") := by
  refine ⟨by decide, by decide, ?_⟩
  rfl

theorem mem_foldl_keys (g : Mat) (acc : List Key) (k : Key) :
    k ∈ g.foldl (fun ks row => if keyOfRow row ∈ ks then ks else ks ++ [keyOfRow row]) acc ↔
      k ∈ acc ∨ ∃ row, row ∈ g ∧ keyOfRow row = k := by
  induction g generalizing acc with
  | nil => simp
  | cons r g ih =>
    simp only [List.foldl_cons, List.mem_cons]
    by_cases h : keyOfRow r ∈ acc
    · rw [if_pos h, ih]
      constructor
      · rintro (hk | ⟨row, hrow, hkey⟩)
        · exact Or.inl hk
        · exact Or.inr ⟨row, Or.inr hrow, hkey⟩
      · rintro (hk | ⟨row, hrow | hrow, hkey⟩)
        · exact Or.inl hk
        · subst hrow
          exact Or.inl (hkey ▸ h)
        · exact Or.inr ⟨row, hrow, hkey⟩
    · rw [if_neg h, ih]
      simp only [List.mem_append, List.mem_singleton]
      constructor
      · rintro ((hk | hk) | ⟨row, hrow, hkey⟩)
        · exact Or.inl hk
        · exact Or.inr ⟨r, Or.inl rfl, hk.symm⟩
        · exact Or.inr ⟨row, Or.inr hrow, hkey⟩
      · rintro (hk | ⟨row, hrow | hrow, hkey⟩)
        · exact Or.inl (Or.inl hk)
        · subst hrow
          exact Or.inl (Or.inr hkey.symm)
        · exact Or.inr ⟨row, hrow, hkey⟩

theorem mem_get_keys (g : Mat) (k : Key) :
    k ∈ get_keys g ↔ ∃ row, row ∈ g ∧ keyOfRow row = k := by
  rw [get_keys, mem_foldl_keys]
  simp

theorem nodup_foldl_keys (g : Mat) (acc : List Key) (hacc : acc.Nodup) :
    (g.foldl (fun ks row => if keyOfRow row ∈ ks then ks else ks ++ [keyOfRow row]) acc).Nodup := by
  induction g generalizing acc with
  | nil => exact hacc
  | cons r g ih =>
    simp only [List.foldl_cons]
    by_cases h : keyOfRow r ∈ acc
    · rw [if_pos h]
      exact ih acc hacc
    · rw [if_neg h]
      refine ih _ (List.nodup_append.mpr ⟨hacc, List.nodup_singleton _, ?_⟩)
      intro a ha hb
      rw [List.mem_singleton] at hb
      exact h (hb ▸ ha)

theorem get_keys_nodup (g : Mat) : (get_keys g).Nodup :=
  nodup_foldl_keys g [] List.nodup_nil

theorem alookup_nil {V : Type} (k : Key) : alookup ([] : List (Key × V)) k = none := rfl

theorem alookup_cons {V : Type} (p : Key × V) (m : List (Key × V)) (k : Key) :
    alookup (p :: m) k = if p.1 = k then some p.2 else alookup m k := by
  by_cases h : p.1 = k
  · rw [if_pos h, alookup, List.find?_cons_of_pos _ (by simpa using h)]
    rfl
  · rw [if_neg h, alookup, List.find?_cons_of_neg _ (by simpa using h)]
    rfl

theorem alookup_isSome {V : Type} (m : List (Key × V)) (k : Key) :
    (alookup m k).isSome = true ↔ k ∈ m.map Prod.fst := by
  induction m with
  | nil => simp [alookup_nil]
  | cons p m ih =>
    rw [alookup_cons]
    by_cases h : p.1 = k
    · rw [if_pos h]
      simp only [Option.isSome_some, List.map_cons, List.mem_cons, true_iff]
      exact Or.inl h.symm
    · simp only [if_neg h, List.map_cons, List.mem_cons, ih]
      constructor
      · exact fun hk => Or.inr hk
      · rintro (hk | hk)
        · exact absurd hk.symm h
        · exact hk

theorem alookup_map_keys {V : Type} (keys : List Key) (f : Key → V) (k : Key) :
    alookup (keys.map (fun k2 => (k2, f k2))) k =
      if k ∈ keys then some (f k) else none := by
  induction keys with
  | nil => simp [alookup_nil]
  | cons k0 ks ih =>
    rw [List.map_cons, alookup_cons]
    by_cases h : k0 = k
    · subst h
      simp
    · rw [if_neg h, ih]
      by_cases h2 : k ∈ ks
      · rw [if_pos h2, if_pos (List.mem_cons_of_mem k0 h2)]
      · rw [if_neg h2, if_neg (by
          intro hc
          rcases List.mem_cons.mp hc with hc | hc
          · exact h hc.symm
          · exact h2 hc)]

theorem alookup_split_map {α : Type} (self : List α) (dflt : α) (other : Mat) (k : Key) :
    alookup (split_map self dflt other) k =
      if k ∈ get_keys other then
        some ((row_indices other k).map (fun r => self.getD r dflt))
      else none := by
  rw [split_map, alookup_map_keys]

theorem split_map_keys {α : Type} (self : List α) (dflt : α) (other : Mat) :
    (split_map self dflt other).map Prod.fst = get_keys other := by
  rw [split_map, List.map_map]
  exact List.map_id (get_keys other)

theorem push_at_eq {V : Type} (m : List (Key × List V)) (k : Key) (v : V)
    (h : k ∈ m.map Prod.fst) :
    push_at m k v = some (m.map (fun p => if p.1 = k then (p.1, p.2 ++ [v]) else p)) := by
  rw [push_at, if_pos ((alookup_isSome m k).mpr h)]

theorem pushed_keys {V : Type} (m : List (Key × List V)) (k : Key) (v : V) :
    (m.map (fun p => if p.1 = k then (p.1, p.2 ++ [v]) else p)).map Prod.fst =
      m.map Prod.fst := by
  induction m with
  | nil => rfl
  | cons p m ih =>
    simp only [List.map_cons, ih]
    by_cases h : p.1 = k
    · rw [if_pos h]
    · rw [if_neg h]

theorem alookup_pushed_self {V : Type} (m : List (Key × List V)) (k : Key) (v : V) :
    alookup (m.map (fun p => if p.1 = k then (p.1, p.2 ++ [v]) else p)) k =
      (alookup m k).map (fun l => l ++ [v]) := by
  induction m with
  | nil => rfl
  | cons p m ih =>
    simp only [List.map_cons]
    by_cases h : p.1 = k
    · rw [if_pos h, alookup_cons, alookup_cons, if_pos h, if_pos h]
      rfl
    · rw [if_neg h, alookup_cons, alookup_cons, if_neg h, if_neg h, ih]

theorem alookup_pushed_other {V : Type} (m : List (Key × List V)) (k k2 : Key) (v : V)
    (h : k2 ≠ k) :
    alookup (m.map (fun p => if p.1 = k then (p.1, p.2 ++ [v]) else p)) k2 =
      alookup m k2 := by
  induction m with
  | nil => rfl
  | cons p m ih =>
    simp only [List.map_cons]
    by_cases hp : p.1 = k
    · rw [if_pos hp, alookup_cons, alookup_cons,
        if_neg (fun hc => h ((hc.symm.trans hp))), if_neg (fun hc => h ((hc.symm.trans hp))), ih]
    · rw [if_neg hp, alookup_cons, alookup_cons]
      by_cases hpk : p.1 = k2
      · rw [if_pos hpk, if_pos hpk]
      · rw [if_neg hpk, if_neg hpk, ih]

theorem init_split_keys {V : Type} (sp : List (Key × V)) :
    (init_split sp).map Prod.fst = sp.map Prod.fst := by
  rw [init_split, List.map_map]
  rfl

theorem alookup_init_split {V : Type} (sp : List (Key × V)) (k : Key) :
    alookup (init_split sp) k = (alookup sp k).map (fun v => [v]) := by
  induction sp with
  | nil => rfl
  | cons p sp ih =>
    rw [init_split, List.map_cons, alookup_cons, alookup_cons]
    by_cases h : p.1 = k
    · rw [if_pos h, if_pos h]
      rfl
    · rw [if_neg h, if_neg h, ← init_split, ih]

theorem extend_split_spec {V : Type} (sp : List (Key × V)) (m : List (Key × List V))
    (hnd : (sp.map Prod.fst).Nodup)
    (hss : ∀ p ∈ sp, p.1 ∈ m.map Prod.fst) :
    ∃ m2, extend_split (some m) sp = some m2 ∧
      m2.map Prod.fst = m.map Prod.fst ∧
      (∀ k v, alookup sp k = some v →
        alookup m2 k = (alookup m k).map (fun l => l ++ [v])) ∧
      (∀ k, alookup sp k = none → alookup m2 k = alookup m k) := by
  induction sp generalizing m with
  | nil =>
    refine ⟨m, rfl, rfl, fun k v hv => ?_, fun k _ => rfl⟩
    rw [alookup_nil] at hv
    cases hv
  | cons p sp ih =>
    have hkm : p.1 ∈ m.map Prod.fst := hss p (List.mem_cons_self p sp)
    have hstep : extend_split (some m) (p :: sp) =
        extend_split (some (m.map (fun q => if q.1 = p.1 then (q.1, q.2 ++ [p.2]) else q))) sp := by
      rw [extend_split]
      rw [show (some m).bind (fun mm => push_at mm p.1 p.2) =
        some (m.map (fun q => if q.1 = p.1 then (q.1, q.2 ++ [p.2]) else q)) from
        push_at_eq m p.1 p.2 hkm]
    rw [List.map_cons] at hnd
    obtain ⟨m2, hm2, hkeys, hsome, hnone⟩ :=
      ih (m.map (fun q => if q.1 = p.1 then (q.1, q.2 ++ [p.2]) else q))
        hnd.of_cons
        (fun q hq => by
          rw [pushed_keys]
          exact hss q (List.mem_cons_of_mem p hq))
    refine ⟨m2, hstep ▸ hm2, hkeys.trans (pushed_keys m p.1 p.2), ?_, ?_⟩
    · intro k v hv
      rw [alookup_cons] at hv
      by_cases h : p.1 = k
      · rw [if_pos h] at hv
        cases hv
        subst h
        have hnot : alookup sp p.1 = none := by
          cases hlk : alookup sp p.1 with
          | none => rfl
          | some w =>
            exact absurd ((alookup_isSome sp p.1).mp (by rw [hlk]; rfl))
              (List.nodup_cons.mp hnd).1
        rw [hnone _ hnot, alookup_pushed_self]
      · rw [if_neg h] at hv
        rw [hsome k v hv, alookup_pushed_other m p.1 k p.2 (fun hc => h hc.symm)]
    · intro k hk
      rw [alookup_cons] at hk
      by_cases h : p.1 = k
      · rw [if_pos h] at hk
        cases hk
      · rw [if_neg h] at hk
        rw [hnone k hk, alookup_pushed_other m p.1 k p.2 (fun hc => h hc.symm)]

theorem foldl_extend_spec {V : Type} (rest : List (List (Key × V)))
    (m : List (Key × List V))
    (hnd : ∀ sp ∈ rest, (sp.map Prod.fst).Nodup)
    (hss : ∀ sp ∈ rest, ∀ p ∈ sp, p.1 ∈ m.map Prod.fst) :
    ∃ m2, rest.foldl extend_split (some m) = some m2 ∧
      m2.map Prod.fst = m.map Prod.fst ∧
      ∀ k l, alookup m k = some l →
        alookup m2 k = some (l ++ rest.filterMap (fun sp => alookup sp k)) := by
  induction rest generalizing m with
  | nil =>
    refine ⟨m, rfl, rfl, fun k l hl => ?_⟩
    rw [List.filterMap_nil, List.append_nil]
    exact hl
  | cons sp rest ih =>
    obtain ⟨m1, hm1, hkeys1, hsome1, hnone1⟩ :=
      extend_split_spec sp m (hnd sp (List.mem_cons_self sp rest))
        (hss sp (List.mem_cons_self sp rest))
    obtain ⟨m2, hm2, hkeys2, hlk2⟩ := ih m1
      (fun s hs => hnd s (List.mem_cons_of_mem sp hs))
      (fun s hs p hp => by
        rw [hkeys1]
        exact hss s (List.mem_cons_of_mem sp hs) p hp)
    refine ⟨m2, ?_, hkeys2.trans hkeys1, ?_⟩
    · rw [List.foldl_cons, hm1, hm2]
    · intro k l hl
      rw [List.filterMap_cons]
      cases hsp : alookup sp k with
      | none =>
        exact hlk2 k l (by rw [hnone1 k hsp]; exact hl)
      | some v =>
        rw [hlk2 k (l ++ [v]) (by rw [hsome1 k v hsp, hl]; rfl), List.append_assoc]
        rfl

theorem build_split_spec {V : Type} (sps : List (List (Key × V))) (hne : sps ≠ [])
    (hnd : ∀ sp ∈ sps, (sp.map Prod.fst).Nodup)
    (hss : ∀ sp ∈ sps, ∀ p ∈ sp, p.1 ∈ (sps.getD 0 []).map Prod.fst) :
    ∃ m, build_split sps = some m ∧
      m.map Prod.fst = (sps.getD 0 []).map Prod.fst ∧
      ∀ k, k ∈ (sps.getD 0 []).map Prod.fst →
        alookup m k = some (sps.filterMap (fun sp => alookup sp k)) := by
  match sps with
  | [] => exact absurd rfl hne
  | sp0 :: rest =>
    obtain ⟨m2, hm2, hkeys, hlk⟩ := foldl_extend_spec rest (init_split sp0)
      (fun sp hs => hnd sp (List.mem_cons_of_mem sp0 hs))
      (fun sp hs p hp => by
        rw [init_split_keys]
        exact hss sp (List.mem_cons_of_mem sp0 hs) p hp)
    refine ⟨m2, hm2, hkeys.trans (init_split_keys sp0), ?_⟩
    intro k hk
    obtain ⟨v, hv⟩ := Option.isSome_iff_exists.mp ((alookup_isSome sp0 k).mpr hk)
    rw [List.filterMap_cons, hv,
      hlk k [v] (by rw [alookup_init_split, hv]; rfl)]
    rfl

theorem map_option_eq_map {α β : Type} (f : α → Option β) (g : α → β) (l : List α)
    (h : ∀ a ∈ l, f a = some (g a)) : map_option f l = some (l.map g) := by
  induction l with
  | nil => rfl
  | cons a l ih =>
    rw [map_option, h a (List.mem_cons_self a l),
      ih (fun b hb => h b (List.mem_cons_of_mem a hb))]
    rfl

theorem length_filterMap_countP {α β : Type} (f : α → Option β) (l : List α) :
    (l.filterMap f).length = l.countP (fun a => (f a).isSome) := by
  induction l with
  | nil => rfl
  | cons a l ih =>
    rw [List.filterMap_cons, List.countP_cons]
    cases h : f a <;> simp [h, ih]

theorem map_getD_range {α : Type} (l : List α) (d : α) :
    (List.range l.length).map (fun i => l.getD i d) = l := by
  apply List.ext_getElem
  · simp
  · intro i h1 h2
    simp only [List.getElem_map, List.getElem_range]
    exact List.getD_eq_getElem _ _ h2

theorem countP_eq_countP_range {α : Type} (l : List α) (d : α) (p : α → Bool) :
    l.countP p = (List.range l.length).countP (fun i => p (l.getD i d)) := by
  conv_lhs => rw [← map_getD_range l d]
  rw [List.countP_map]
  rfl

theorem getD_mem {α : Type} (l : List α) (i : ℕ) (d : α) (h : i < l.length) :
    l.getD i d ∈ l := by
  rw [List.getD_eq_getElem _ _ h]
  exact List.getElem_mem h

theorem geff_zero (groups : List Mat) : geff groups 0 = groups.getD 0 [] := by
  rw [geff]
  split <;> rfl

theorem replicate_estimates_isSome_of (estimator : Mat → Vec → Estimates) (x : List Mat)
    (weights : List Vec) (replicate_wgts : List Mat) (factor : ℚ)
    (h : (weights.length = 1 ∨ weights.length = x.length) ∧
      (replicate_wgts.length = 1 ∨ replicate_wgts.length = x.length)) :
    ∃ re, replicate_estimates estimator x weights replicate_wgts factor = some re := by
  rw [replicate_estimates, if_pos h]
  exact ⟨_, rfl⟩

/-- C2 (amended): the key set of a grouped `calculate` comes from the FIRST
grouping matrix only, not from the union across imputations.  Whenever every
grouping matrix's keys appear among the first one's (and the row counts line
up), `calculate` succeeds, the key set of the returned mapping is exactly
the key set of the first grouping matrix (which under that condition equals
the union across imputations), and the result at each key is the
replication engine applied to precisely the data / weight /
replicate-weight chunks of those rounds whose grouping matrix contains the
key — so a key missing from some later imputation still contributes a
result whose imputation variance is computed from only the imputations
containing it.  When some later grouping matrix has a key that is absent
from the first one, `calculate` instead dies at the
`x_split.get_mut(&key).unwrap()` panic (see the counterexample theorem). -/
theorem calculate_group_by_keys_from_first (estimator : Mat → Vec → Estimates)
    (xs : List Mat) (wgt : Vec) (repwgts : Mat) (gs : List Mat) (factor : ℚ)
    (ename : Option String)
    (hm : 0 < xs.length)
    (hgn : 0 < gs.length)
    (hgs : gs.length = 1 ∨ gs.length = xs.length)
    (hxrows : ∀ i, i < xs.length → (xs.getD i []).length = (geff gs i).length)
    (hwrows : ∀ g ∈ gs, wgt.length = g.length)
    (hrrows : ∀ g ∈ gs, repwgts.length = g.length)
    (hsub : ∀ g ∈ gs, ∀ k ∈ get_keys g, k ∈ get_keys (gs.getD 0 [])) :
    ∃ results,
      calculate { x := some xs, wgt := some wgt, repwgts := some repwgts,
                  variance_adjustment_factor := factor, estimate_name := ename,
                  estimate := some estimator, groups := some gs } = .ok results ∧
      results.map Prod.fst = get_keys (gs.getD 0 []) ∧
      ∀ k, k ∈ get_keys (gs.getD 0 []) →
        ∃ re, alookup results k = some re ∧
          replicate_estimates estimator
            (((List.range xs.length).map
                (fun i => split_map (xs.getD i []) [] (geff gs i))).filterMap
              (fun sp => alookup sp k))
            ((gs.map (fun g => split_map wgt 0 g)).filterMap (fun sp => alookup sp k))
            ((gs.map (fun g => split_map repwgts [] g)).filterMap (fun sp => alookup sp k))
            factor = some re := by
  have hsubx : ∀ i, i < xs.length → ∀ k, k ∈ get_keys (geff gs i) →
      k ∈ get_keys (gs.getD 0 []) := by
    intro i hi k hk
    rw [geff] at hk
    by_cases hlt : 1 < gs.length
    · rw [if_pos hlt] at hk
      have hglen : gs.length = xs.length := by
        rcases hgs with h | h
        · omega
        · exact h
      exact hsub _ (getD_mem gs i [] (by omega)) k hk
    · rw [if_neg hlt] at hk
      exact hk
  have hmap_head : ∀ (α : Type) (f : Mat → List (Key × α)),
      (gs.map f).getD 0 [] = f (gs.getD 0 []) := by
    intro α f
    rw [List.getD_eq_getElem _ _ (by simpa using hgn), List.getElem_map]
    congr 1
    exact (List.getD_eq_getElem _ _ hgn).symm
  have hgs_ne : gs ≠ [] := List.length_pos.mp hgn
  -- the per-round splits all succeed
  have hSx : map_option (fun i => split_by (xs.getD i []) [] (geff gs i))
      (List.range xs.length) =
      some ((List.range xs.length).map (fun i => split_map (xs.getD i []) [] (geff gs i))) := by
    refine map_option_eq_map _ _ _ ?_
    intro i hi
    rw [split_by, if_pos (hxrows i (List.mem_range.mp hi))]
  have hSw : map_option (fun g => split_by wgt 0 g) gs =
      some (gs.map (fun g => split_map wgt 0 g)) := by
    refine map_option_eq_map _ _ _ ?_
    intro g hg
    rw [split_by, if_pos (hwrows g hg)]
  have hSr : map_option (fun g => split_by repwgts [] g) gs =
      some (gs.map (fun g => split_map repwgts [] g)) := by
    refine map_option_eq_map _ _ _ ?_
    intro g hg
    rw [split_by, if_pos (hrrows g hg)]
  -- shape facts about the split lists
  have hSx_mem : ∀ sp ∈ (List.range xs.length).map
      (fun i => split_map (xs.getD i []) [] (geff gs i)),
      ∃ i, i < xs.length ∧ sp = split_map (xs.getD i []) [] (geff gs i) := by
    intro sp hsp
    obtain ⟨i, hi, rfl⟩ := List.mem_map.mp hsp
    exact ⟨i, List.mem_range.mp hi, rfl⟩
  have hSx_ne : ((List.range xs.length).map
      (fun i => split_map (xs.getD i []) [] (geff gs i))) ≠ [] := by
    intro h
    rw [List.map_eq_nil_iff, List.range_eq_nil] at h
    omega
  have hSx_head : ((List.range xs.length).map
      (fun i => split_map (xs.getD i []) [] (geff gs i))).getD 0 [] =
      split_map (xs.getD 0 []) [] (geff gs 0) :=
    getD_map_range _ _ hm
  have hSx_head_keys : (((List.range xs.length).map
      (fun i => split_map (xs.getD i []) [] (geff gs i))).getD 0 []).map Prod.fst =
      get_keys (gs.getD 0 []) := by
    rw [hSx_head, split_map_keys, geff_zero]
  -- build the three merged splits
  obtain ⟨x_split, hbx, hbx_keys, hbx_lk⟩ := build_split_spec
    ((List.range xs.length).map (fun i => split_map (xs.getD i []) [] (geff gs i)))
    hSx_ne
    (fun sp hsp => by
      obtain ⟨i, hi, rfl⟩ := hSx_mem sp hsp
      rw [split_map_keys]
      exact get_keys_nodup _)
    (fun sp hsp p hp => by
      obtain ⟨i, hi, rfl⟩ := hSx_mem sp hsp
      rw [hSx_head_keys]
      have hpk : p.1 ∈ (split_map (xs.getD i []) [] (geff gs i)).map Prod.fst :=
        List.mem_map_of_mem Prod.fst hp
      rw [split_map_keys] at hpk
      exact hsubx i hi p.1 hpk)
  obtain ⟨wgt_split, hbw, hbw_keys, hbw_lk⟩ := build_split_spec
    (gs.map (fun g => split_map wgt 0 g))
    (fun h => hgs_ne (List.map_eq_nil_iff.mp h))
    (fun sp hsp => by
      obtain ⟨g, hg, rfl⟩ := List.mem_map.mp hsp
      rw [split_map_keys]
      exact get_keys_nodup _)
    (fun sp hsp p hp => by
      obtain ⟨g, hg, rfl⟩ := List.mem_map.mp hsp
      rw [hmap_head, split_map_keys]
      have hpk : p.1 ∈ (split_map wgt 0 g).map Prod.fst :=
        List.mem_map_of_mem Prod.fst hp
      rw [split_map_keys] at hpk
      exact hsub g hg p.1 hpk)
  obtain ⟨repwgt_split, hbr, hbr_keys, hbr_lk⟩ := build_split_spec
    (gs.map (fun g => split_map repwgts [] g))
    (fun h => hgs_ne (List.map_eq_nil_iff.mp h))
    (fun sp hsp => by
      obtain ⟨g, hg, rfl⟩ := List.mem_map.mp hsp
      rw [split_map_keys]
      exact get_keys_nodup _)
    (fun sp hsp p hp => by
      obtain ⟨g, hg, rfl⟩ := List.mem_map.mp hsp
      rw [hmap_head, split_map_keys]
      have hpk : p.1 ∈ (split_map repwgts [] g).map Prod.fst :=
        List.mem_map_of_mem Prod.fst hp
      rw [split_map_keys] at hpk
      exact hsub g hg p.1 hpk)
  -- lookups at a key of the first grouping matrix
  have hbx_lk2 : ∀ k, k ∈ get_keys (gs.getD 0 []) →
      alookup x_split k = some (((List.range xs.length).map
        (fun i => split_map (xs.getD i []) [] (geff gs i))).filterMap
        (fun sp => alookup sp k)) := by
    intro k hk
    exact hbx_lk k (by rw [hSx_head_keys]; exact hk)
  have hbw_lk2 : ∀ k, k ∈ get_keys (gs.getD 0 []) →
      alookup wgt_split k = some ((gs.map (fun g => split_map wgt 0 g)).filterMap
        (fun sp => alookup sp k)) := by
    intro k hk
    exact hbw_lk k (by rw [hmap_head, split_map_keys]; exact hk)
  have hbr_lk2 : ∀ k, k ∈ get_keys (gs.getD 0 []) →
      alookup repwgt_split k = some ((gs.map (fun g => split_map repwgts [] g)).filterMap
        (fun sp => alookup sp k)) := by
    intro k hk
    exact hbr_lk k (by rw [hmap_head, split_map_keys]; exact hk)
  -- the engine's length assertions hold at every key of the first matrix
  have hlen_gs : ∀ (α : Type) (self : List α) (dflt : α) (k : Key),
      ((gs.map (fun g => split_map self dflt g)).filterMap
        (fun sp => alookup sp k)).length =
      gs.countP (fun g => decide (k ∈ get_keys g)) := by
    intro α self dflt k
    rw [length_filterMap_countP, List.countP_map]
    refine List.countP_congr ?_
    intro g hg
    simp only [Function.comp_apply, alookup_split_map]
    by_cases h : k ∈ get_keys g <;> simp [h]
  have hlen_x : ∀ k,
      (((List.range xs.length).map (fun i => split_map (xs.getD i []) [] (geff gs i))).filterMap
        (fun sp => alookup sp k)).length =
      (List.range xs.length).countP (fun i => decide (k ∈ get_keys (geff gs i))) := by
    intro k
    rw [length_filterMap_countP, List.countP_map]
    refine List.countP_congr ?_
    intro i hi
    simp only [Function.comp_apply, alookup_split_map]
    by_cases h : k ∈ get_keys (geff gs i) <;> simp [h]
  have hcount : ∀ k, k ∈ get_keys (gs.getD 0 []) →
      gs.countP (fun g => decide (k ∈ get_keys g)) = 1 ∨
      gs.countP (fun g => decide (k ∈ get_keys g)) =
        (List.range xs.length).countP (fun i => decide (k ∈ get_keys (geff gs i))) := by
    intro k hk
    by_cases hlt : 1 < gs.length
    · right
      have hglen : gs.length = xs.length := by
        rcases hgs with h | h
        · omega
        · exact h
      rw [countP_eq_countP_range gs [] (fun g => decide (k ∈ get_keys g)), hglen]
      refine List.countP_congr ?_
      intro i hi
      rw [geff, if_pos hlt]
    · left
      have h1 : gs.length = 1 := by omega
      rw [countP_eq_countP_range gs [] (fun g => decide (k ∈ get_keys g)), h1,
        List.range_succ, List.range_zero, List.nil_append, List.countP_cons, List.countP_nil]
      rw [if_pos (decide_eq_true hk)]
  have hre : ∀ k, k ∈ get_keys (gs.getD 0 []) →
      ∃ re, replicate_estimates estimator
        (((List.range xs.length).map
            (fun i => split_map (xs.getD i []) [] (geff gs i))).filterMap
          (fun sp => alookup sp k))
        ((gs.map (fun g => split_map wgt 0 g)).filterMap (fun sp => alookup sp k))
        ((gs.map (fun g => split_map repwgts [] g)).filterMap (fun sp => alookup sp k))
        factor = some re := by
    intro k hk
    refine replicate_estimates_isSome_of _ _ _ _ _ ⟨?_, ?_⟩
    · rw [hlen_gs, hlen_x]
      rcases hcount k hk with h | h
      · exact Or.inl h
      · exact Or.inr h
    · rw [hlen_gs, hlen_x]
      rcases hcount k hk with h | h
      · exact Or.inl h
      · exact Or.inr h
  -- the per-key engine runs collected by calculate
  have hfk : ∀ k ∈ get_keys (gs.getD 0 []),
      (alookup x_split k).bind (fun xk =>
        (alookup wgt_split k).bind (fun wk =>
          (alookup repwgt_split k).bind (fun rk =>
            (replicate_estimates estimator xk wk rk factor).map (fun re => (k, re))))) =
      some (k, (replicate_estimates estimator
        (((List.range xs.length).map
            (fun i => split_map (xs.getD i []) [] (geff gs i))).filterMap
          (fun sp => alookup sp k))
        ((gs.map (fun g => split_map wgt 0 g)).filterMap (fun sp => alookup sp k))
        ((gs.map (fun g => split_map repwgts [] g)).filterMap (fun sp => alookup sp k))
        factor).getD ⟨[], [], [], [], []⟩) := by
    intro k hk
    rw [hbx_lk2 k hk, hbw_lk2 k hk, hbr_lk2 k hk]
    obtain ⟨re, hre2⟩ := hre k hk
    simp only [Option.some_bind]
    rw [hre2]
    rfl
  refine ⟨(get_keys (gs.getD 0 [])).map (fun k => (k, (replicate_estimates estimator
      (((List.range xs.length).map
          (fun i => split_map (xs.getD i []) [] (geff gs i))).filterMap
        (fun sp => alookup sp k))
      ((gs.map (fun g => split_map wgt 0 g)).filterMap (fun sp => alookup sp k))
      ((gs.map (fun g => split_map repwgts [] g)).filterMap (fun sp => alookup sp k))
      factor).getD ⟨[], [], [], [], []⟩)), ?_, ?_, ?_⟩
  · -- calculate returns exactly this mapping
    have hprepmw : prepare_missing_weights
        { x := some xs, wgt := some wgt, repwgts := some repwgts,
          variance_adjustment_factor := factor, estimate_name := ename,
          estimate := some estimator, groups := some gs } =
        .ok { x := some xs, wgt := some wgt, repwgts := some repwgts,
              variance_adjustment_factor := factor, estimate_name := ename,
              estimate := some estimator, groups := some gs } := by
      simp only [prepare_missing_weights]
      rw [if_neg (by omega : ¬ xs.length = 0)]
      rfl
    have hprep : prepare_for_calculate_group_by xs wgt repwgts gs =
        .ok (get_keys (gs.getD 0 []), x_split, wgt_split, repwgt_split) := by
      rw [prepare_for_calculate_group_by,
        if_neg (by rcases hgs with h | h <;> omega :
          ¬ (1 < gs.length ∧ gs.length ≠ xs.length))]
      simp only [hSx, hbx, hSw, hbw, hSr, hbr]
    have hres := map_option_eq_map
      (fun k => (alookup x_split k).bind (fun xk =>
        (alookup wgt_split k).bind (fun wk =>
          (alookup repwgt_split k).bind (fun rk =>
            (replicate_estimates estimator xk wk rk factor).map (fun re => (k, re))))))
      (fun k => (k, (replicate_estimates estimator
        (((List.range xs.length).map
            (fun i => split_map (xs.getD i []) [] (geff gs i))).filterMap
          (fun sp => alookup sp k))
        ((gs.map (fun g => split_map wgt 0 g)).filterMap (fun sp => alookup sp k))
        ((gs.map (fun g => split_map repwgts [] g)).filterMap (fun sp => alookup sp k))
        factor).getD ⟨[], [], [], [], []⟩))
      (get_keys (gs.getD 0 [])) hfk
    simp only [calculate, hprepmw, Option.getD_some, hgn, if_true, hprep, hres]
  · rw [List.map_map]
    exact List.map_id _
  · intro k hk
    obtain ⟨re, hre2⟩ := hre k hk
    refine ⟨re, ?_, hre2⟩
    rw [alookup_map_keys, if_pos hk, hre2]
    rfl

/-- Witness for the amended grouping theorem at a concrete two-imputation
input whose second grouping matrix's keys {"1"} are a subset of the first
one's {"1","2"}. -/
theorem calculate_group_by_keys_from_first_witness :
    (∀ g ∈ ([[[1], [2]], [[1], [1]]] : List Mat), ∀ k ∈ get_keys g,
      k ∈ get_keys (([[[1], [2]], [[1], [1]]] : List Mat).getD 0 [])) ∧
    ∃ results,
      calculate { x := some [[[10], [20]], [[30], [40]]], wgt := some [1, 1],
                  repwgts := some [[], []], variance_adjustment_factor := 1,
                  estimate_name := none,
                  estimate := some (fun _ w => ⟨["s"], [w.sum]⟩),
                  groups := some [[[1], [2]], [[1], [1]]] } = .ok results ∧
      results.map Prod.fst = get_keys (([[[1], [2]], [[1], [1]]] : List Mat).getD 0 []) :=
  ⟨by decide,
   match calculate_group_by_keys_from_first (fun _ w => ⟨["s"], [w.sum]⟩)
      [[[10], [20]], [[30], [40]]] [1, 1] [[], []] [[[1], [2]], [[1], [1]]] 1 none
      (by decide) (by decide) (Or.inr rfl) (by decide) (by decide) (by decide)
      (by decide) with
   | ⟨results, hok, hkeys, _⟩ => ⟨results, hok, hkeys⟩⟩

end analysis

end Replicest
